import Mathlib

/-!
# Verification of the react-gen indexing and reference-resolution core

This file gives a shallow embedding of the core of the `react-gen`
repository (scanner, parser boundary, project-map builder, autocompleter,
reference resolver) and proves properties of that embedding.

JavaScript strings are modelled as Lean `String`s (character lists);
`String.prototype.split` with a one-character separator is modelled by
`splitChar`/`strSplit`; JavaScript's dynamic values (the nested
`structure` object of the project map) are modelled by the inductive
type `JS` below, together with duck-typed property access (`jsGet`),
truthiness (`jsTruthy`), `for‥in` key enumeration (`jsKeys`) and the
`typeof x === "object"` test (`jsIsObject`).  `Array.prototype.sort`
with the default comparator is modelled by `sortStrings` (lexicographic
on characters, which agrees with the JS code-unit order on ASCII data).
-/

namespace ReactGen

/-! ## String preliminaries -/

/-- JavaScript `\w` character class: `[A-Za-z0-9_]` (`Char.isAlphanum` is
ASCII-only, matching the non-unicode JS regexp semantics). -/
def isWordChar (c : Char) : Bool := c.isAlphanum || c = '_'

/-- Split a character list at every occurrence of `sep`
(JS `String.prototype.split` with a one-character separator:
always returns at least one, possibly empty, group). -/
def splitChar (sep : Char) : List Char → List (List Char)
  | [] => [[]]
  | c :: rest =>
    match splitChar sep rest with
    | [] => [[]]
    | g :: gs => if c = sep then [] :: g :: gs else (c :: g) :: gs

/-- `splitChar` never returns the empty list of groups. -/
theorem splitChar_ne_nil (sep : Char) (cs : List Char) : splitChar sep cs ≠ [] := by
  cases cs with
  | nil => simp [splitChar]
  | cons c rest =>
    simp only [splitChar]
    cases h : splitChar sep rest with
    | nil => simp
    | cons g gs =>
      by_cases hc : c = sep <;> simp [hc]

/-- No group produced by `splitChar` contains the separator. -/
theorem splitChar_not_mem (sep : Char) (cs : List Char) :
    ∀ g ∈ splitChar sep cs, sep ∉ g := by
  induction cs with
  | nil => intro g hg; simp [splitChar] at hg; simp [hg]
  | cons c rest ih =>
    intro g hg
    cases h : splitChar sep rest with
    | nil => exact absurd h (splitChar_ne_nil sep rest)
    | cons g0 gs =>
      have hs : splitChar sep (c :: rest)
          = if c = sep then [] :: g0 :: gs else (c :: g0) :: gs := by
        simp only [splitChar, h]
      rw [hs] at hg
      have ih0 : sep ∉ g0 := ih g0 (h ▸ List.mem_cons_self _ _)
      by_cases hc : c = sep
      · rw [if_pos hc] at hg
        rcases List.mem_cons.mp hg with rfl | hg
        · simp
        · rcases List.mem_cons.mp hg with rfl | hg
          · exact ih0
          · exact ih g (h ▸ List.mem_cons_of_mem _ hg)
      · rw [if_neg hc] at hg
        rcases List.mem_cons.mp hg with rfl | hg
        · intro hmem
          rcases List.mem_cons.mp hmem with h1 | h1
          · exact hc h1.symm
          · exact ih0 h1
        · exact ih g (h ▸ List.mem_cons_of_mem _ hg)

/-- String-level split on a one-character separator. -/
def strSplit (sep : Char) (s : String) : List String :=
  (splitChar sep s.toList).map String.mk

/-- Last element of a `split` result (JS `array.pop()` on the non-empty
result of `split`), with `""` standing for the impossible empty case. -/
def lastSeg (s : String) : String :=
  (strSplit '/' s).getLastD ""

/-- ASCII lower-casing, modelling JS `toLowerCase` on the ASCII data
handled here. -/
def lowerStr (s : String) : String := String.mk (s.toList.map Char.toLower)

/-- JS `String.prototype.startsWith`. -/
def startsWithStr (s pre : String) : Bool := pre.toList.isPrefixOf s.toList

/-- Strip one trailing source extension, modelling the JS replacement
`.replace(/\.(tsx?|jsx?)$/, '')` (the anchored alternation removes a
final `.tsx`/`.jsx`/`.ts`/`.js`). -/
def stripExt (s : String) : String :=
  let cs := s.toList
  if ['.', 't', 's', 'x'].isSuffixOf cs then String.mk (cs.take (cs.length - 4))
  else if ['.', 'j', 's', 'x'].isSuffixOf cs then String.mk (cs.take (cs.length - 4))
  else if ['.', 't', 's'].isSuffixOf cs then String.mk (cs.take (cs.length - 3))
  else if ['.', 'j', 's'].isSuffixOf cs then String.mk (cs.take (cs.length - 3))
  else s

/-- Stripped filename of a path: final `/`-segment with the extension
removed (`filePath.split('/').pop().replace(/\.(tsx?|jsx?)$/,'')`). -/
def strippedName (p : String) : String := stripExt (lastSeg p)

/-- JS `String.prototype.includes`: substring containment. -/
def containsStr (hay needle : String) : Bool :=
  hay.toList.tails.any (fun t => needle.toList.isPrefixOf t)

theorem containsStr_iff (hay needle : String) :
    containsStr hay needle = true ↔ needle.toList <:+: hay.toList := by
  unfold containsStr
  rw [List.any_eq_true]
  constructor
  · rintro ⟨t, ht, hp⟩
    exact List.infix_iff_prefix_suffix.mpr
      ⟨t, List.isPrefixOf_iff_prefix.mp hp, (List.mem_tails _ _).mp ht⟩
  · intro h
    rcases List.infix_iff_prefix_suffix.mp h with ⟨t, hp, hs⟩
    exact ⟨t, (List.mem_tails _ _).mpr hs, List.isPrefixOf_iff_prefix.mpr hp⟩

/-- Lexicographic comparison of character lists, as the JS default
sort comparator orders strings by code units. -/
def charListLeB : List Char → List Char → Bool
  | [], _ => true
  | _ :: _, [] => false
  | a :: as, b :: bs =>
    if a < b then true
    else if b < a then false
    else charListLeB as bs

/-- The JS default-comparator string order. -/
def strLeB (a b : String) : Bool := charListLeB a.toList b.toList

theorem charListLeB_iff_not_lex : ∀ as bs : List Char,
    charListLeB as bs = true ↔ ¬ List.Lex (· < ·) bs as := by
  intro as
  induction as with
  | nil =>
    intro bs
    cases bs with
    | nil => simp [charListLeB]
    | cons b bs' => simp [charListLeB]
  | cons a as' ih =>
    intro bs
    cases bs with
    | nil =>
      simp only [charListLeB, Bool.false_eq_true, false_iff, not_not]
      exact List.Lex.nil
    | cons b bs' =>
      simp only [charListLeB]
      by_cases hab : a < b
      · rw [if_pos hab]
        simp only [true_iff]
        intro hlex
        cases hlex with
        | rel h => exact absurd hab (asymm h)
        | cons h => exact absurd hab (lt_irrefl _)
      · rw [if_neg hab]
        by_cases hba : b < a
        · rw [if_pos hba]
          simp only [Bool.false_eq_true, false_iff, not_not]
          exact List.Lex.rel hba
        · rw [if_neg hba]
          rw [ih bs']
          constructor
          · intro h hlex
            cases hlex with
            | rel hr => exact hba hr
            | cons hc => exact h hc
          · intro h hrec
            have hcast : a = b :=
              le_antisymm (le_of_not_lt hba) (le_of_not_lt hab)
            subst hcast
            exact h (List.Lex.cons hrec)

/-- The executable comparator agrees with the lexicographic order on
`String`. -/
theorem strLeB_iff (a b : String) : strLeB a b = true ↔ a ≤ b := by
  rw [String.le_iff_toList_le, ← not_lt]
  exact charListLeB_iff_not_lex a.toList b.toList

/-- Insert a string into a sorted list (helper for `sortStrings`). -/
def insertSorted (x : String) : List String → List String
  | [] => [x]
  | y :: ys => if strLeB x y then x :: y :: ys else y :: insertSorted x ys

/-- Insertion sort on strings, modelling JS `Array.prototype.sort()`
with the default (code-unit lexicographic) comparator. -/
def sortStrings : List String → List String
  | [] => []
  | x :: xs => insertSorted x (sortStrings xs)

theorem mem_insertSorted {x y : String} {l : List String} :
    y ∈ insertSorted x l ↔ y = x ∨ y ∈ l := by
  induction l with
  | nil => simp [insertSorted]
  | cons z zs ih =>
    simp only [insertSorted]
    by_cases h : strLeB x z = true
    · simp [h]
    · simp [h, ih]
      tauto

theorem mem_sortStrings {y : String} {l : List String} :
    y ∈ sortStrings l ↔ y ∈ l := by
  induction l with
  | nil => simp [sortStrings]
  | cons x xs ih => simp [sortStrings, mem_insertSorted, ih]

theorem sorted_insertSorted {x : String} {l : List String}
    (h : l.Sorted (· ≤ ·)) : (insertSorted x l).Sorted (· ≤ ·) := by
  induction l with
  | nil => simp [insertSorted]
  | cons z zs ih =>
    simp only [insertSorted]
    by_cases hxz : strLeB x z = true
    · rw [if_pos hxz]
      have hxz' := (strLeB_iff x z).mp hxz
      exact List.sorted_cons.mpr ⟨fun b hb => by
        rcases List.mem_cons.mp hb with rfl | hb
        · exact hxz'
        · exact le_trans hxz' ((List.sorted_cons.mp h).1 b hb), h⟩
    · rw [if_neg hxz]
      have hxz' : z ≤ x :=
        le_of_not_le (fun hle => hxz ((strLeB_iff x z).mpr hle))
      have hzs := (List.sorted_cons.mp h).2
      refine List.sorted_cons.mpr ⟨fun b hb => ?_, ih hzs⟩
      rcases mem_insertSorted.mp hb with rfl | hb
      · exact hxz'
      · exact (List.sorted_cons.mp h).1 b hb

theorem sorted_sortStrings (l : List String) :
    (sortStrings l).Sorted (· ≤ ·) := by
  induction l with
  | nil => simp [sortStrings]
  | cons x xs ih => exact sorted_insertSorted ih

/-- Deduplication keeping first occurrences, modelling `[...new Set(a)]`. -/
def dedupFirstAux (seen : List String) : List String → List String
  | [] => []
  | x :: xs => if x ∈ seen then dedupFirstAux seen xs
               else x :: dedupFirstAux (x :: seen) xs

def dedupFirst (l : List String) : List String := dedupFirstAux [] l

theorem mem_dedupFirstAux {y : String} {seen l : List String} :
    y ∈ dedupFirstAux seen l ↔ y ∈ l ∧ y ∉ seen := by
  induction l generalizing seen with
  | nil => simp [dedupFirstAux]
  | cons x xs ih =>
    simp only [dedupFirstAux]
    by_cases h : x ∈ seen
    · rw [if_pos h, ih]
      constructor
      · rintro ⟨h1, h2⟩; exact ⟨List.mem_cons_of_mem _ h1, h2⟩
      · rintro ⟨h1, h2⟩
        rcases List.mem_cons.mp h1 with rfl | h1
        · exact absurd h h2
        · exact ⟨h1, h2⟩
    · rw [if_neg h]
      constructor
      · intro hy
        rcases List.mem_cons.mp hy with rfl | hy
        · exact ⟨List.mem_cons_self _ _, h⟩
        · have hm := ih.mp hy
          exact ⟨List.mem_cons_of_mem _ hm.1,
            fun hs => hm.2 (List.mem_cons_of_mem _ hs)⟩
      · rintro ⟨h1, h2⟩
        rcases List.mem_cons.mp h1 with rfl | h1
        · exact List.mem_cons_self _ _
        · by_cases hyx : y = x
          · subst hyx; exact List.mem_cons_self _ _
          · refine List.mem_cons_of_mem _ (ih.mpr ⟨h1, fun hs => ?_⟩)
            rcases List.mem_cons.mp hs with h3 | h3
            · exact hyx h3
            · exact h2 h3

theorem mem_dedupFirst {y : String} {l : List String} :
    y ∈ dedupFirst l ↔ y ∈ l := by
  unfold dedupFirst; rw [mem_dedupFirstAux]; simp

theorem nodup_dedupFirstAux (seen l : List String) :
    (dedupFirstAux seen l).Nodup := by
  induction l generalizing seen with
  | nil => simp [dedupFirstAux]
  | cons x xs ih =>
    simp only [dedupFirstAux]
    by_cases h : x ∈ seen
    · rw [if_pos h]; exact ih seen
    · rw [if_neg h]
      refine List.nodup_cons.mpr ⟨fun hx => ?_, ih (x :: seen)⟩
      exact (mem_dedupFirstAux.mp hx).2 (List.mem_cons_self _ _)

theorem nodup_dedupFirst (l : List String) : (dedupFirst l).Nodup :=
  nodup_dedupFirstAux [] l

/-! ## A model of the JavaScript values making up the project map

The `structure` object built by `buildProjectMap` is a nested plain
object whose entries are either directory objects or file records; file
records hold strings (`path`, `type`), a number (`lines`) and arrays of
strings (`exports`, `imports`, `usedBy`).  `JS` covers exactly these
shapes.  Property access, truthiness, `for‥in` enumeration and the
`typeof` test follow the JavaScript semantics on such values (arrays
answer numeric indices and `length`; strings likewise). -/

inductive JS where
  | vstr (s : String)
  | vnum (n : Nat)
  | varr (xs : List String)
  | vobj (fields : List (String × JS))

instance : Inhabited JS := ⟨JS.vobj []⟩

/-- First binding of a key in an object's field list. -/
def lookupField : List (String × JS) → String → Option JS
  | [], _ => none
  | (k, v) :: rest, key => if k = key then some v else lookupField rest key

/-- JS assignment `obj[k] = v`: overwrite the key in place, or append
a new one. -/
def setField : List (String × JS) → String → JS → List (String × JS)
  | [], key, v => [(key, v)]
  | (k0, v0) :: rest, key, v =>
    if k0 = key then (key, v) :: rest
    else (k0, v0) :: setField rest key v

/-- JS truthiness of the values in our fragment (`""` and `0` are falsy;
objects and arrays are always truthy). -/
def jsTruthy : JS → Bool
  | .vstr s => s ≠ ""
  | .vnum n => n ≠ 0
  | .varr _ => true
  | .vobj _ => true

/-- A string is a canonical array index when it prints back to itself. -/
def canonIndex (s : String) : Option Nat :=
  match s.toNat? with
  | some n => if toString n = s then some n else none
  | none => none

/-- JS property access `v[k]`, `none` standing for `undefined`. -/
def jsGet : JS → String → Option JS
  | .vobj fields, k => lookupField fields k
  | .varr xs, k =>
    if k = "length" then some (.vnum xs.length)
    else match canonIndex k with
         | some i => (xs.get? i).map .vstr
         | none => none
  | .vstr s, k =>
    if k = "length" then some (.vnum s.length)
    else match canonIndex k with
         | some i => (s.toList.get? i).map (fun c => .vstr (String.mk [c]))
         | none => none
  | .vnum _, _ => none

/-- Truthiness of `v[k]` (`undefined` is falsy). -/
def jsTruthyProp (v : JS) (k : String) : Bool :=
  match jsGet v k with
  | some w => jsTruthy w
  | none => false

/-- `for (const k in v)` key enumeration. -/
def jsKeys : JS → List String
  | .vobj fields => fields.map (fun kv => kv.1)
  | .varr xs => (List.range xs.length).map toString
  | .vstr s => (List.range s.length).map toString
  | .vnum _ => []

/-- `typeof v === "object"` (true for arrays as well). -/
def jsIsObject : JS → Bool
  | .vobj _ => true
  | .varr _ => true
  | _ => false

/-- The string value of a `path` property, when present.  Per the spec a
tree entry is a file record iff it carries the relative-path tag; in the
built trees this is exactly a string-valued `path` field. -/
def recordPath : JS → Option String
  | .vobj fields =>
    match lookupField fields "path" with
    | some (.vstr s) => some s
    | _ => none
  | _ => none

/-- `v` is a file-record leaf of the tree. -/
def FileRecLeaf (v : JS) : Prop := ∃ s, recordPath v = some s

/-! ## Parser boundary (`src/core/parser.ts`)

`parseFile` calls the external Babel parser/traverser inside a
`try`/`catch`; we model that external capability as an oracle
`extract : content → path → Option (exports × imports)`, `none`
standing for a thrown parse error.  On `none` the initial result value
(empty exports, empty imports, type `utility`) is returned unchanged —
in particular the file-type determination, which sits inside the `try`
block, is skipped. -/

inductive FileType where
  | component | utility | test
deriving DecidableEq, Repr

structure ParsedFile where
  exports : List String
  imports : List String
  type : FileType
deriving DecidableEq, Repr

/-- Path carries a `.test.` or `.spec.` marker. -/
def hasTestMarker (filePath : String) : Bool :=
  containsStr filePath ".test." || containsStr filePath ".spec."

def parseFile (extract : String → String → Option (List String × List String))
    (content filePath : String) : ParsedFile :=
  match extract content filePath with
  | none => { exports := [], imports := [], type := .utility }
  | some (exps, imps) =>
    { exports := exps
      imports := imps
      type :=
        if hasTestMarker filePath then .test
        else if exps.length > 0 then .component
        else .utility }

/-! ## Scanner (`src/core/scanner.ts`)

The glob step is an external collaborator; `scanProject` receives the
candidate relative paths it produced and a read oracle for file
contents.  A failing read aborts the whole scan with that error. -/

structure ScannedFile where
  path : String
  fullPath : String
  content : String
  lines : Nat
deriving DecidableEq, Repr

/-- `content.split("\n").length`: an empty file counts as one line. -/
def countLines (content : String) : Nat := (strSplit '\n' content).length

def scanProject (readFile : String → Except String String)
    (rootDir : String) : List String → Except String (List ScannedFile)
  | [] => .ok []
  | p :: rest => do
    let content ← readFile p
    let files ← scanProject readFile rootDir rest
    .ok ({ path := p, fullPath := rootDir ++ "/" ++ p, content := content,
           lines := countLines content } :: files)

/-! ## Index builder (`src/core/mapper.ts`) -/

/-- The file-record object attached under the final path segment. -/
def fileRecordJS (file : ScannedFile) (parsed : ParsedFile) : JS :=
  .vobj [("path", .vstr file.path),
         ("type", .vstr (match parsed.type with
                         | .component => "component"
                         | .utility => "utility"
                         | .test => "test")),
         ("lines", .vnum file.lines),
         ("exports", .varr parsed.exports),
         ("imports", .varr parsed.imports),
         ("usedBy", .varr [])]

/-- Walk/create directory objects for all but the last path segment and
attach `rec` under the final segment (the `for` loop of
`buildProjectMap`).  The JS loop reuses `current[part]` whenever it is
truthy; on the trees built here a present value is always a plain
object.  (If the looked-up value were a non-object the JS assignment
below it would throw; that case, unreachable for scanner output, keeps
the fields unchanged here.) -/
def insertRec (rec : JS) : List String → List (String × JS) → List (String × JS)
  | [], fields => fields
  | part :: rest, fields =>
    match rest with
    | [] => setField fields part rec
    | _ :: _ =>
      match (match lookupField fields part with
             | some v => if jsTruthy v then v else JS.vobj []
             | none => JS.vobj []) with
      | .vobj sub => setField fields part (JS.vobj (insertRec rec rest sub))
      | _ => fields

structure ProjectMap where
  version : String
  rootDir : String
  /-- the `structure` field of the source (a Lean keyword) -/
  struct : List (String × JS)
  files : List String
  components : List String

/-- The per-file step of `buildProjectMap`'s loop, updating
(structure, allFiles, components). -/
def buildStep (extract : String → String → Option (List String × List String))
    (acc : List (String × JS) × List String × List String)
    (file : ScannedFile) : List (String × JS) × List String × List String :=
  let parsed := parseFile extract file.content file.path
  let parts := strSplit '/' file.path
  let st := insertRec (fileRecordJS file parsed) parts acc.1
  let files := acc.2.1 ++ [file.path]
  let comps := if parsed.type = .component ∧ parsed.exports.length > 0
               then acc.2.2 ++ parsed.exports else acc.2.2
  (st, files, comps)

/-- `buildProjectMap` after the scan: fold the scanned files into one
project map.  (`scannedAt`, a wall-clock timestamp, is outside the
model.) -/
def buildFromFiles
    (extract : String → String → Option (List String × List String))
    (rootDir : String) (scanned : List ScannedFile) : ProjectMap :=
  let acc := scanned.foldl (buildStep extract) ([], [], [])
  { version := "1.0", rootDir := rootDir,
    struct := acc.1, files := acc.2.1, components := acc.2.2 }

/-! ## REPL state and the init command (`src/repl/state.ts`,
`src/commands/init.ts`)

`initCommand` sets `projectRoot` once `package.json` is found, then
builds the map; any error thrown by the scan is caught and leaves the
state's `projectMap` untouched.  When the scan finds no files the
command returns before `setProjectMap` as well. -/

structure REPLState where
  projectRoot : Option String
  projectMap : Option ProjectMap

def initCommand (hasPackageJson : Bool) (cwd : String)
    (readFile : String → Except String String) (candidates : List String)
    (extract : String → String → Option (List String × List String))
    (st : REPLState) : REPLState :=
  if ¬ hasPackageJson then st
  else
    let st1 := { st with projectRoot := some cwd }
    match scanProject readFile cwd candidates with
    | .error _ => st1
    | .ok files =>
      let pm := buildFromFiles extract cwd files
      if pm.files.isEmpty then st1
      else { st1 with projectMap := some pm }

/-! ## Autocompleter (`src/core/autocomplete.ts`)

The functions below are the methods of `AutoCompleter`, taken with the
project map as an explicit argument (the `!this.state.projectMap`
null-guard concerns the uninitialised REPL state and is outside the
per-index claims). -/

/-- `src/core/templates.ts`. -/
def TEMPLATES : List String :=
  ["form:login", "form:signup", "form:contact", "form:search",
   "button:primary", "button:secondary", "button:ghost",
   "card:simple", "card:product", "card:user",
   "modal:confirm", "modal:info", "modal:form",
   "nav:header", "nav:sidebar", "nav:breadcrumbs"]

def completeTemplate (text : String) : List String :=
  (TEMPLATES.filter (fun t => startsWithStr t text)).map (fun t => "@" ++ t)

def completeFile (pm : ProjectMap) (text : String) : List String :=
  let searchText := lowerStr text
  let hits := pm.files.filterMap (fun filePath =>
    let filename := strippedName filePath
    if containsStr (lowerStr filename) searchText then some ("#" ++ filename)
    else none)
  sortStrings (dedupFirst hits)

/-- The entries of a node lacking the relative-path tag — the spec's
only file/directory discriminant, checked as the source does
(`typeof item === 'object' && !item.path`). -/
def dirChildNames (v : JS) : List String :=
  (jsKeys v).filter (fun k =>
    match jsGet v k with
    | some item => jsIsObject item && !(jsTruthyProp item "path")
    | none => false)

/-- `getFoldersIn`: push the directory-typed keys, then sort. -/
def getFoldersIn (v : JS) : List String :=
  sortStrings (dirChildNames v)

/-- The navigation loop of `completeFolder`: skip empty parts
(`if (!part) continue`), descend on truthy lookups, fail otherwise. -/
def navFolder : JS → List String → Option JS
  | cur, [] => some cur
  | cur, part :: rest =>
    if part = "" then navFolder cur rest
    else match jsGet cur part with
         | some v => if jsTruthy v then navFolder v rest else none
         | none => none

/-- The dotted-path reconstruction of `completeFolder`
(`currentPath.length > 0 ? "." + currentPath.join(".") + "." : "."`). -/
def dottedPfx (currentPath : List String) : String :=
  if currentPath.length > 0
  then "." ++ String.intercalate "." currentPath ++ "."
  else "."

def completeFolder (pm : ProjectMap) (text : String) : List String :=
  let parts := strSplit '.' text
  let currentPath := parts.dropLast
  let searchText := lowerStr (parts.getLastD "")
  match navFolder (.vobj pm.struct) currentPath with
  | none => []
  | some cur =>
    let folders := getFoldersIn cur
    let hits := folders.filter (fun f => startsWithStr (lowerStr f) searchText)
    hits.map (fun f => dottedPfx currentPath ++ f)

/-- Character classes of the three completion-trigger regexps. -/
def tmplClass (c : Char) : Bool := c.isAlphanum || c = ':' || c = '-'
def fileRefClass (c : Char) : Bool := c.isAlphanum || c = '_' || c = '-'
def folderRefClass (c : Char) : Bool :=
  c.isAlphanum || c = '.' || c = '_' || c = '/' || c = '-'

/-- Semantics of matching `/T([cls]*)$/` against a string: the match
anchors at the first (leftmost) position holding `trig` from which
every following character lies in `cls` (the `[cls]*` part is forced to
reach the end by the `$` anchor); the returned capture is that
remainder. -/
def matchTokenEnd (trig : Char) (cls : Char → Bool) : List Char → Option (List Char)
  | [] => none
  | c :: rest => if c = trig && rest.all cls then some rest
                 else matchTokenEnd trig cls rest

/-- `AutoCompleter.complete`: try the `@`, `#`, `.` token patterns in
that order on the text before the cursor. -/
def complete (pm : ProjectMap) (line : String) (cursorPos : Nat) : List String :=
  let t := line.toList.take cursorPos
  match matchTokenEnd '@' tmplClass t with
  | some cap => completeTemplate (String.mk cap)
  | none =>
    match matchTokenEnd '#' fileRefClass t with
    | some cap => completeFile pm (String.mk cap)
    | none =>
      match matchTokenEnd '.' folderRefClass t with
      | some cap => completeFolder pm (String.mk cap)
      | none => []

/-! ## Reference resolver (`resolveReference`) -/

/-- `[\w.]` class of the qualifier group. -/
def isQualChar (c : Char) : Bool := isWordChar c || c = '.'

/-- Parse a reference against the anchored pattern: an optional group
(a dot followed by at least one word-or-dot character), a `#`, and a
non-empty word-character name.  Neither group's class admits `#`, so a
match decomposes the string at its unique `#`. -/
def refParse (reference : String) : Option (Option String × String) :=
  let cs := reference.toList
  let pre := cs.takeWhile (fun c => c ≠ '#')
  match cs.dropWhile (fun c => c ≠ '#') with
  | '#' :: name =>
    if name ≠ [] && name.all isWordChar then
      match pre with
      | [] => some (none, String.mk name)
      | '.' :: body =>
        if body ≠ [] && body.all isQualChar then
          some (some (String.mk body), String.mk name)
        else none
      | _ => none
    else none
  | _ => none

/-- Unqualified search: the `for‥of` loop over `projectMap.files`
returning the first path whose stripped filename equals `filename`. -/
def resolveUnqualified : List String → String → Option String
  | [], _ => none
  | filePath :: rest, filename =>
    if strippedName filePath = filename then some filePath
    else resolveUnqualified rest filename

/-- The folder-descent loop of `resolveReference` (no empty-segment
skipping here, unlike `completeFolder`). -/
def navQual : JS → List String → Option JS
  | cur, [] => some cur
  | cur, part :: rest =>
    match jsGet cur part with
    | some v => if jsTruthy v then navQual v rest else none
    | none => none

/-- One pass of the final loop of `resolveReference` over the listed
keys.  As soon as the duck-type guard
`item && typeof item === 'object' && item.path` passes, the code calls
`item.path.split('/')`: when that truthy `path` property is a string
the stripped filename is compared against `filename` (first match
returned), but when it is a truthy non-string — e.g. the child is a
directory that itself contains a subdirectory named `path` — the
`split` call throws a `TypeError`, modelled as `.error ()`. -/
def findFileInLoop (cur : JS) (filename : String) :
    List String → Except Unit (Option String)
  | [] => .ok none
  | key :: rest =>
    match jsGet cur key with
    | some item =>
      if jsIsObject item && jsTruthyProp item "path" then
        match jsGet item "path" with
        | some (.vstr s) =>
          if strippedName s = filename then .ok (some s)
          else findFileInLoop cur filename rest
        | _ => .error ()
      else findFileInLoop cur filename rest
    | none => findFileInLoop cur filename rest

/-- The final loop of `resolveReference`: scan the direct children of
the qualified directory in key order; `.ok (some p)` is an early
`return item.path`, `.ok none` the fall-through `return null`, and
`.error ()` an escaping `TypeError` (see `findFileInLoop`). -/
def findFileIn (cur : JS) (filename : String) : Except Unit (Option String) :=
  findFileInLoop cur filename (jsKeys cur)

/-- `resolveReference`, with the escaping `TypeError` of the qualified
branch's final loop modelled as `.error ()`; every other branch returns
normally (`.ok`).  The unqualified branch only splits elements of
`projectMap.files`, which are strings, so it cannot throw. -/
def resolveReference (pm : ProjectMap) (reference : String) :
    Except Unit (Option String) :=
  match refParse reference with
  | none => .ok none
  | some (folderPath?, filename) =>
    match folderPath? with
    | none => .ok (resolveUnqualified pm.files filename)
    | some folderPath =>
      match navQual (.vobj pm.struct) (strSplit '.' folderPath) with
      | none => .ok none
      | some cur => findFileIn cur filename

/-! ## Claim C1: the category rule -/

/-- **C1 counterexample**: an unparseable file whose path contains
`".test."` is categorised `utility`, not `test` — the categorisation
step sits inside the aborted `try` block, so the claim's "regardless of
whether extraction succeeded" fails on the code. -/
theorem parseFile_testMarker_counterexample :
    hasTestMarker "A.test.tsx" = true ∧
    (parseFile (fun _ _ => none) "const x = (" "A.test.tsx").type
      = FileType.utility ∧
    FileType.utility ≠ FileType.test :=
  ⟨by decide, rfl, by decide⟩

/-- **C1 (amended)**: when extraction succeeds, the category is `test`
iff the file's path contains `".test."` or `".spec."`; otherwise it is
`component` iff the extracted exports are non-empty; otherwise
`utility`.  When extraction fails, the category is `utility` regardless
of the path. -/
theorem parseFile_category
    (extract : String → String → Option (List String × List String))
    (content filePath : String) :
    ((parseFile extract content filePath).type = .test ↔
      (extract content filePath).isSome = true ∧
        hasTestMarker filePath = true) ∧
    ((parseFile extract content filePath).type = .component ↔
      (∃ es imps, extract content filePath = some (es, imps) ∧
        hasTestMarker filePath = false ∧ es ≠ [])) ∧
    ((parseFile extract content filePath).type = .utility ↔
      (extract content filePath = none ∨
       (∃ imps, extract content filePath = some ([], imps) ∧
         hasTestMarker filePath = false))) := by
  rcases hext : extract content filePath with _ | ⟨es, imps⟩
  · simp [parseFile, hext]
  · simp only [parseFile, hext, Option.isSome_some, Option.some.injEq,
      Prod.mk.injEq, true_and]
    cases hm : hasTestMarker filePath
    · rcases es with _ | ⟨e, es'⟩
      · simp_all
      · simp_all
    · simp_all

/-! ## Claim C7: extraction failure degrades, the build continues -/

/-- The `allFiles` accumulator of the build loop collects every scanned
path, whatever the extraction oracle answers. -/
theorem buildSteps_files
    (extract : String → String → Option (List String × List String))
    (scanned : List ScannedFile) :
    ∀ acc, (scanned.foldl (buildStep extract) acc).2.1
      = acc.2.1 ++ scanned.map (fun f => f.path) := by
  induction scanned with
  | nil => simp
  | cons f fs ih =>
    intro acc
    rw [List.foldl_cons, ih]
    simp [buildStep]

/-- **C7**: `parseFile` is a total function of the extraction outcome;
when extraction fails it returns empty exports and imports with type
`utility`, and the index build still records every scanned file in
`allFiles` (indexing continues past failed files). -/
theorem extraction_failure_degrades
    (extract : String → String → Option (List String × List String))
    (rootDir content filePath : String) (scanned : List ScannedFile)
    (hfail : extract content filePath = none) :
    parseFile extract content filePath
      = { exports := [], imports := [], type := .utility } ∧
    (buildFromFiles extract rootDir scanned).files
      = scanned.map (fun f => f.path) := by
  constructor
  · simp [parseFile, hfail]
  · show (scanned.foldl (buildStep extract) ([], [], [])).2.1 = _
    rw [buildSteps_files]
    simp

theorem extraction_failure_degrades_witness :
    parseFile (fun _ _ => none) "const x = (" "a/Broken.tsx"
      = { exports := [], imports := [], type := .utility } ∧
    (buildFromFiles (fun _ _ => none) "/r"
      [{ path := "a/Broken.tsx", fullPath := "/r/a/Broken.tsx",
         content := "const x = (", lines := 1 },
       { path := "a/Ok.tsx", fullPath := "/r/a/Ok.tsx",
         content := "", lines := 1 }]).files
      = ["a/Broken.tsx", "a/Ok.tsx"] := by
  have h := extraction_failure_degrades (fun _ _ => none) "/r" "const x = ("
    "a/Broken.tsx"
    [{ path := "a/Broken.tsx", fullPath := "/r/a/Broken.tsx",
       content := "const x = (", lines := 1 },
     { path := "a/Ok.tsx", fullPath := "/r/a/Ok.tsx",
       content := "", lines := 1 }] rfl
  exact ⟨h.1, h.2⟩

/-! ## Claim C8: an unreadable file fails the whole scan -/

/-- The read result is an error. -/
def isErrB : Except String String → Bool
  | .error _ => true
  | .ok _ => false

theorem find?_isSome_of_mem {α} (p : α → Bool) {l : List α} {x : α}
    (hx : x ∈ l) (hpx : p x = true) : ∃ y, l.find? p = some y := by
  induction l with
  | nil => cases hx
  | cons c rest ih =>
    cases hc : p c
    · rcases List.mem_cons.mp hx with rfl | hx'
      · rw [hpx] at hc; cases hc
      · rcases ih hx' with ⟨y, hy⟩
        exact ⟨y, by rw [List.find?_cons_of_neg _ (by simp [hc]), hy]⟩
    · exact ⟨c, List.find?_cons_of_pos _ hc⟩

/-- The sequential read loop fails with the error of the first failing
candidate. -/
theorem scanProject_error (readFile : String → Except String String)
    (rootDir : String) :
    ∀ (cands : List String) (p : String),
      cands.find? (fun q => isErrB (readFile q)) = some p →
      ∃ e, readFile p = .error e ∧
        scanProject readFile rootDir cands = .error e := by
  intro cands
  induction cands with
  | nil => intro p h; cases h
  | cons c rest ih =>
    intro p h
    cases hc : isErrB (readFile c)
    · rw [List.find?_cons_of_neg (p := fun q => isErrB (readFile q)) _
        (by simp [hc])] at h
      rcases hc' : readFile c with e | s
      · simp [isErrB, hc'] at hc
      · rcases ih p h with ⟨e, he, hscan⟩
        refine ⟨e, he, ?_⟩
        simp only [scanProject, hc', hscan]
        rfl
    · rw [List.find?_cons_of_pos (p := fun q => isErrB (readFile q)) _ hc] at h
      injection h with h
      subst h
      rcases hc' : readFile c with e | s
      · refine ⟨e, rfl, ?_⟩
        simp only [scanProject, hc']
        rfl
      · simp [isErrB, hc'] at hc

/-- **C8**: if reading any candidate file fails, the whole scan fails
with the error of the first failing candidate — no partial file list —
and `initCommand` builds and swaps in no new index: the state's
previously loaded `projectMap` is unchanged. -/
theorem scan_failure_aborts (hasPkg : Bool) (cwd : String)
    (readFile : String → Except String String) (cands : List String)
    (extract : String → String → Option (List String × List String))
    (st : REPLState)
    (h : ∃ p ∈ cands, isErrB (readFile p) = true) :
    (∃ p e, cands.find? (fun q => isErrB (readFile q)) = some p ∧
      readFile p = .error e ∧
      scanProject readFile cwd cands = .error e) ∧
    (initCommand hasPkg cwd readFile cands extract st).projectMap
      = st.projectMap := by
  rcases h with ⟨p, hp, hperr⟩
  rcases find?_isSome_of_mem (fun q => isErrB (readFile q)) hp hperr
    with ⟨q, hq⟩
  rcases scanProject_error readFile cwd cands q hq with ⟨e, he, hscan⟩
  refine ⟨⟨q, e, hq, he, hscan⟩, ?_⟩
  cases hasPkg <;> simp [initCommand, hscan]

theorem scan_failure_aborts_witness :
    (∃ p ∈ ["src/Ok.tsx", "src/Bad.tsx"],
      isErrB ((fun q => if q = "src/Bad.tsx" then Except.error "EACCES"
                        else Except.ok "x") p) = true) ∧
    ((∃ p e, (["src/Ok.tsx", "src/Bad.tsx"].find? (fun q =>
        isErrB (if q = "src/Bad.tsx" then Except.error "EACCES"
                else Except.ok "x"))) = some p ∧
      (if p = "src/Bad.tsx" then Except.error "EACCES"
       else Except.ok "x") = Except.error e ∧
      scanProject (fun q => if q = "src/Bad.tsx" then Except.error "EACCES"
                            else Except.ok "x") "/r"
        ["src/Ok.tsx", "src/Bad.tsx"] = Except.error e) ∧
    (initCommand true "/r"
      (fun q => if q = "src/Bad.tsx" then Except.error "EACCES"
                else Except.ok "x")
      ["src/Ok.tsx", "src/Bad.tsx"] (fun _ _ => none)
      { projectRoot := none, projectMap := none }).projectMap
      = ({ projectRoot := none, projectMap := none } : REPLState).projectMap) :=
  ⟨by decide, scan_failure_aborts true "/r" _ _ (fun _ _ => none) _ (by decide)⟩

/-! ## Claim C10: references outside the grammar never resolve -/

/-- String concatenation acts on the underlying character lists. -/
theorem strMk_append (a b : List Char) :
    String.mk (a ++ b) = String.mk a ++ String.mk b := rfl

theorem toList_append (s t : String) :
    (s ++ t).toList = s.toList ++ t.toList := rfl

/-- The reference shape demanded by the resolver, stated as in the
claim: an optional qualifier (a dot followed by at least one word-or-
dot character), then `#`, then a non-empty name of characters in
`[A-Za-z0-9_]`. -/
def RefShape (reference : String) : Prop :=
  ∃ q n, reference = q ++ "#" ++ n ∧ n ≠ "" ∧
    (∀ c ∈ n.toList, isWordChar c = true) ∧
    (q = "" ∨ ∃ body, q = "." ++ body ∧ body ≠ "" ∧
      ∀ c ∈ body.toList, isQualChar c = true)

/-- A successful parse exhibits the claimed shape. -/
theorem refParse_some_shape {reference : String}
    {x : Option String × String} (h : refParse reference = some x) :
    RefShape reference := by
  simp only [refParse] at h
  have hcs := List.takeWhile_append_dropWhile
    (fun c => decide (c ≠ '#')) reference.toList
  split at h
  case _ name heq =>
    rw [heq] at hcs
    split at h
    case isTrue hname =>
      rw [Bool.and_eq_true] at hname
      have hne : name ≠ [] := by simpa using hname.1
      have hword := hname.2
      split at h
      case _ hpre =>
        -- no qualifier group
        refine ⟨"", String.mk name, ?_, ?_, ?_, Or.inl rfl⟩
        · have hl : reference.toList = '#' :: name := by
            rw [← hcs, hpre]; rfl
          show reference = "" ++ "#" ++ String.mk name
          calc reference = String.mk reference.toList := rfl
            _ = String.mk ('#' :: name) := by rw [hl]
            _ = "" ++ "#" ++ String.mk name := rfl
        · intro hemp
          exact hne (congrArg String.toList hemp)
        · intro c hc
          exact List.all_eq_true.mp hword c hc
      case _ body heq2 =>
        -- dot-qualifier group
        split at h
        case isTrue hbody =>
          rw [Bool.and_eq_true] at hbody
          have hbne : body ≠ [] := by simpa using hbody.1
          refine ⟨String.mk ('.' :: body), String.mk name, ?_, ?_, ?_,
            Or.inr ⟨String.mk body, rfl, ?_, ?_⟩⟩
          · have hl : reference.toList = ('.' :: body) ++ '#' :: name := by
              rw [← hcs, heq2]
            have hl2 : reference.toList = (('.' :: body) ++ ['#']) ++ name := by
              rw [hl]; simp
            calc reference = String.mk reference.toList := rfl
              _ = String.mk ((('.' :: body) ++ ['#']) ++ name) := by rw [hl2]
              _ = String.mk ('.' :: body) ++ "#" ++ String.mk name := rfl
          · intro hemp
            exact hne (congrArg String.toList hemp)
          · intro c hc
            exact List.all_eq_true.mp hword c hc
          · intro hemp
            exact hbne (congrArg String.toList hemp)
          · intro c hc
            exact List.all_eq_true.mp hbody.2 c hc
        case isFalse => cases h
      case _ => cases h
    case isFalse => cases h
  case _ => cases h

/-- **C10**: any reference not of the shape "optional `.`-qualifier of
word-or-dot characters, `#`, non-empty word-character name" resolves to
`null` — returned normally, before any index lookup — whatever the
index contains. -/
theorem resolveReference_shape (pm : ProjectMap) (reference : String)
    (h : ¬ RefShape reference) : resolveReference pm reference = .ok none := by
  rcases hp : refParse reference with _ | x
  · simp [resolveReference, hp]
  · exact absurd (refParse_some_shape hp) h

/-- Witness for C10, also exhibiting the asymmetry named in the claim:
`#`-completion offers `#my-file` (its class admits `-`) while the very
same reference can never resolve. -/
theorem resolveReference_shape_witness :
    (¬ RefShape "#my-file") ∧
    resolveReference
      (buildFromFiles (fun _ _ => some (["X"], [])) "/r"
        [{ path := "src/my-file.tsx", fullPath := "/r/src/my-file.tsx",
           content := "", lines := 1 }]) "#my-file" = .ok none ∧
    completeFile
      (buildFromFiles (fun _ _ => some (["X"], [])) "/r"
        [{ path := "src/my-file.tsx", fullPath := "/r/src/my-file.tsx",
           content := "", lines := 1 }]) "my-file" = ["#my-file"] := by
  have hshape : ¬ RefShape "#my-file" := by
    rintro ⟨q, n, heq, hne, hword, hq⟩
    have htl := congrArg String.toList heq
    rcases hq with rfl | ⟨body, rfl, hbne, hbody⟩
    · -- "#my-file" = "#" ++ n forces n = "my-file", but '-' is not a word char
      have htl' : ('#' :: "my-file".toList : List Char) = '#' :: n.toList := htl
      have hn : "my-file".toList = n.toList := by injection htl'
      have hmem : '-' ∈ n.toList := hn ▸ (by decide : '-' ∈ "my-file".toList)
      have := hword '-' hmem
      simp [isWordChar] at this
    · -- a qualified reference would have to start with '.'
      have htl' : ('#' :: "my-file".toList : List Char)
          = '.' :: ((body.toList ++ ['#']) ++ n.toList) := htl
      injection htl' with h1 h2
      exact absurd h1 (by decide)
  refine ⟨hshape, resolveReference_shape _ _ hshape, by decide⟩

/-! ## Claim C3: unqualified resolution is first-match in scan order -/

/-- **C3 counterexample**: with exactly one file `src/my-comp.tsx`
(stripped filename `my-comp`), the reference `#my-comp` returns `none`
although the first — indeed only — file in scan order matches: the
claim fails for names containing characters outside `[A-Za-z0-9_]`. -/
theorem resolveReference_hyphen_counterexample :
    (buildFromFiles (fun _ _ => some (["X"], [])) "/r"
      [{ path := "src/my-comp.tsx", fullPath := "/r/src/my-comp.tsx",
         content := "", lines := 1 }]).files = ["src/my-comp.tsx"] ∧
    strippedName "src/my-comp.tsx" = "my-comp" ∧
    resolveReference
      (buildFromFiles (fun _ _ => some (["X"], [])) "/r"
        [{ path := "src/my-comp.tsx", fullPath := "/r/src/my-comp.tsx",
           content := "", lines := 1 }]) "#my-comp" = .ok none :=
  ⟨by decide, by decide, rfl⟩

/-- Parsing a bare `#name` reference with a grammatical name. -/
theorem refParse_hash_name (name : String) (hne : name ≠ "")
    (hword : ∀ c ∈ name.toList, isWordChar c = true) :
    refParse ("#" ++ name) = some (none, name) := by
  have hne' : name.toList ≠ [] := by
    intro hl
    exact hne (show name = "" from congrArg String.mk hl)
  have htl : ("#" ++ name).toList = '#' :: name.toList := rfl
  have h1 : List.takeWhile (fun c => decide (c ≠ '#'))
      ('#' :: name.toList) = [] := by simp
  have h2 : List.dropWhile (fun c => decide (c ≠ '#'))
      ('#' :: name.toList) = '#' :: name.toList := by simp
  have hb : (decide (name.toList ≠ []) && name.toList.all isWordChar)
      = true := by
    rw [Bool.and_eq_true]
    exact ⟨by simpa using hne', List.all_eq_true.mpr hword⟩
  simp only [refParse, htl, h1, h2, hb, if_true]
  rfl

theorem resolveUnqualified_eq_find (files : List String) (filename : String) :
    resolveUnqualified files filename
      = files.find? (fun p => strippedName p == filename) := by
  induction files with
  | nil => rfl
  | cons p rest ih =>
    by_cases hp : strippedName p = filename
    · simp only [resolveUnqualified, if_pos hp]
      rw [List.find?_cons_of_pos _ (by simp [hp])]
    · simp only [resolveUnqualified, if_neg hp]
      rw [List.find?_cons_of_neg _ (by simp [hp]), ih]

/-- **C3 (amended)**: for every name inside the reference grammar
(non-empty, characters in `[A-Za-z0-9_]`), resolving `"#" ++ name`
returns the first file of `allFiles` in scan order whose stripped
filename equals the name exactly and case-sensitively, and `none` when
no file matches; with several matching files in different directories,
the earliest in scan order wins. -/
theorem resolveReference_unqualified (pm : ProjectMap) (name : String)
    (hne : name ≠ "") (hword : ∀ c ∈ name.toList, isWordChar c = true) :
    resolveReference pm ("#" ++ name)
      = .ok (pm.files.find? (fun p => strippedName p == name)) := by
  unfold resolveReference
  rw [refParse_hash_name name hne hword]
  exact congrArg Except.ok (resolveUnqualified_eq_find _ _)

/-- Witness for the amended C3 on a two-match index: the earliest file
in scan order wins. -/
theorem resolveReference_unqualified_witness :
    ("Button" ≠ "") ∧ (∀ c ∈ "Button".toList, isWordChar c = true) ∧
    resolveReference
      (buildFromFiles (fun _ _ => some (["Button"], [])) "/r"
        [{ path := "src/a/Button.tsx", fullPath := "/r/src/a/Button.tsx",
           content := "", lines := 1 },
         { path := "src/b/Button.tsx", fullPath := "/r/src/b/Button.tsx",
           content := "", lines := 1 }]) "#Button"
      = .ok (["src/a/Button.tsx", "src/b/Button.tsx"].find?
          (fun p => strippedName p == "Button")) ∧
    (["src/a/Button.tsx", "src/b/Button.tsx"].find?
        (fun p => strippedName p == "Button")) = some "src/a/Button.tsx" := by
  refine ⟨by decide, by decide, ?_, by decide⟩
  exact resolveReference_unqualified
    (buildFromFiles (fun _ _ => some (["Button"], [])) "/r"
      [{ path := "src/a/Button.tsx", fullPath := "/r/src/a/Button.tsx",
         content := "", lines := 1 },
       { path := "src/b/Button.tsx", fullPath := "/r/src/b/Button.tsx",
         content := "", lines := 1 }]) "Button" (by decide) (by decide)

/-! ## Claim C6: `#`-completion is substring search -/

theorem nodup_insertSorted {x : String} {l : List String}
    (hx : x ∉ l) (h : l.Nodup) : (insertSorted x l).Nodup := by
  induction l with
  | nil => simp [insertSorted]
  | cons z zs ih =>
    simp only [insertSorted]
    by_cases hxz : strLeB x z = true
    · rw [if_pos hxz]
      exact List.nodup_cons.mpr ⟨hx, h⟩
    · rw [if_neg hxz]
      have h' := List.nodup_cons.mp h
      refine List.nodup_cons.mpr
        ⟨?_, ih (fun hm => hx (List.mem_cons_of_mem _ hm)) h'.2⟩
      intro hz
      rcases mem_insertSorted.mp hz with rfl | hm
      · exact hx (List.mem_cons_self _ _)
      · exact h'.1 hm

theorem nodup_sortStrings {l : List String} (h : l.Nodup) :
    (sortStrings l).Nodup := by
  induction l with
  | nil => simp [sortStrings]
  | cons x xs ih =>
    have h' := List.nodup_cons.mp h
    exact nodup_insertSorted (fun hm => h'.1 (mem_sortStrings.mp hm)) (ih h'.2)

/-- **C6**: for every index and token suffix, `#`-completion returns
exactly the `#`-prefixed stripped filenames of the files whose
lower-cased stripped filename contains the lower-cased suffix as a
substring (`<:+:`, not merely a prefix), with duplicates removed and
sorted in ascending order. -/
theorem completeFile_spec (pm : ProjectMap) (text : String) :
    (∀ s, s ∈ completeFile pm text ↔
      ∃ p ∈ pm.files,
        (lowerStr text).toList <:+: (lowerStr (strippedName p)).toList ∧
        s = "#" ++ strippedName p) ∧
    (completeFile pm text).Sorted (· ≤ ·) ∧
    (completeFile pm text).Nodup := by
  refine ⟨?_, sorted_sortStrings _, nodup_sortStrings (nodup_dedupFirst _)⟩
  intro s
  simp only [completeFile, mem_sortStrings, mem_dedupFirst, List.mem_filterMap]
  constructor
  · rintro ⟨p, hp, hf⟩
    by_cases hc : containsStr (lowerStr (strippedName p)) (lowerStr text) = true
    · rw [if_pos hc] at hf
      injection hf with hf
      exact ⟨p, hp, containsStr_iff _ _ |>.mp hc, hf.symm⟩
    · rw [if_neg hc] at hf
      cases hf
  · rintro ⟨p, hp, hinf, rfl⟩
    exact ⟨p, hp, by rw [if_pos ((containsStr_iff _ _).mpr hinf)]⟩

/-! ## Claim C9: token recognition in `complete` -/

/-- Position `i` can anchor a token: it holds the trigger character and
the allowed class extends unbroken from it to the cursor. -/
def anchorOK (trig : Char) (cls : Char → Bool) (cs : List Char) (i : Nat) :
    Bool :=
  (cs.get? i == some trig) && (cs.drop (i + 1)).all cls

/-- Token recognition as the claim words it: anchor at the rightmost
trigger occurrence whose class extends unbroken to the cursor. -/
def rightmostToken (trig : Char) (cls : Char → Bool) (cs : List Char) :
    Option (List Char) :=
  (((List.range cs.length).filter (anchorOK trig cls cs)).getLast?).map
    (fun i => cs.drop (i + 1))

/-- Token recognition as the code's regexps do it: anchor at the
leftmost trigger occurrence whose class extends unbroken to the
cursor. -/
def leftmostToken (trig : Char) (cls : Char → Bool) (cs : List Char) :
    Option (List Char) :=
  (((List.range cs.length).filter (anchorOK trig cls cs)).head?).map
    (fun i => cs.drop (i + 1))

/-- Completion with the claim's (rightmost-anchored) recognition and
the `@`, `#`, `.` precedence. -/
def completeRightmostSpec (pm : ProjectMap) (line : String)
    (cursorPos : Nat) : List String :=
  let t := line.toList.take cursorPos
  match rightmostToken '@' tmplClass t with
  | some cap => completeTemplate (String.mk cap)
  | none =>
    match rightmostToken '#' fileRefClass t with
    | some cap => completeFile pm (String.mk cap)
    | none =>
      match rightmostToken '.' folderRefClass t with
      | some cap => completeFolder pm (String.mk cap)
      | none => []

/-- Completion with leftmost-anchored recognition and the same
precedence. -/
def completeLeftmostSpec (pm : ProjectMap) (line : String)
    (cursorPos : Nat) : List String :=
  let t := line.toList.take cursorPos
  match leftmostToken '@' tmplClass t with
  | some cap => completeTemplate (String.mk cap)
  | none =>
    match leftmostToken '#' fileRefClass t with
    | some cap => completeFile pm (String.mk cap)
    | none =>
      match leftmostToken '.' folderRefClass t with
      | some cap => completeFolder pm (String.mk cap)
      | none => []

theorem anchorOK_cons_succ (trig : Char) (cls : Char → Bool) (c : Char)
    (rest : List Char) (i : Nat) :
    anchorOK trig cls (c :: rest) (i + 1) = anchorOK trig cls rest i := by
  simp [anchorOK]

/-- The regexp match `/T([cls]*)$/` anchors at the leftmost position
from which the class reaches the cursor. -/
theorem matchTokenEnd_eq_leftmost (trig : Char) (cls : Char → Bool) :
    ∀ cs, matchTokenEnd trig cls cs = leftmostToken trig cls cs := by
  intro cs
  induction cs with
  | nil => rfl
  | cons c rest ih =>
    unfold leftmostToken
    rw [List.length_cons, List.range_succ_eq_map, List.filter_cons]
    by_cases hc : (c = trig ∧ rest.all cls = true)
    · have h0 : anchorOK trig cls (c :: rest) 0 = true := by
        simp [anchorOK, hc.1, hc.2]
      rw [if_pos h0]
      simp only [List.head?_cons, Option.map_some]
      show matchTokenEnd trig cls (c :: rest) = some rest
      simp [matchTokenEnd, hc.1, hc.2]
    · have h0 : ¬ (anchorOK trig cls (c :: rest) 0 = true) := by
        simp only [anchorOK, List.get?_cons_zero, List.drop_succ_cons,
          List.drop_zero, Bool.and_eq_true, beq_iff_eq, Option.some.injEq]
        rintro ⟨h1, h2⟩
        exact hc ⟨h1, h2⟩
      rw [if_neg h0]
      have hmt : matchTokenEnd trig cls (c :: rest)
          = matchTokenEnd trig cls rest := by
        have : ¬ ((c = trig) ∧ rest.all cls = true) := hc
        simp only [matchTokenEnd]
        rw [if_neg (by
          simp only [Bool.and_eq_true, decide_eq_true_eq]
          exact this)]
      rw [hmt, ih]
      unfold leftmostToken
      rw [List.filter_map, List.head?_map, Option.map_map]
      have hfun : (anchorOK trig cls (c :: rest)) ∘ Nat.succ
          = anchorOK trig cls rest := by
        funext i
        exact anchorOK_cons_succ trig cls c rest i
      rw [hfun]
      rfl

/-- **C9 (amended)**: `complete` recognises the token by trying the
`@`, then `#`, then `.` trigger patterns on the text strictly before
the cursor, evaluating only the first that matches, where each pattern
anchors at the *leftmost* trigger character whose allowed class extends
unbroken to the cursor (for `@` and `#`, whose trigger characters are
outside their own classes, this position coincides with the rightmost
trigger occurrence; for `.`, whose class contains `.`, it need not);
the empty sequence is returned when no pattern matches. -/
theorem complete_anchors_leftmost (pm : ProjectMap) (line : String)
    (cursorPos : Nat) :
    complete pm line cursorPos = completeLeftmostSpec pm line cursorPos := by
  simp only [complete, completeLeftmostSpec, matchTokenEnd_eq_leftmost]

/-- **C9 counterexample**: on the line `".a.b"` with the cursor at 4,
over an index with directories `a/bb` and `bx`, the code anchors the
`.`-token at the leftmost dot (token `.a.b`, completing inside `a`),
while the claim's rightmost-anchored recognition yields token `.b`
(completing at the root): the results differ. -/
theorem complete_rightmost_counterexample :
    complete
      (buildFromFiles (fun _ _ => none) "/r"
        [{ path := "a/bb/f.tsx", fullPath := "/r/a/bb/f.tsx",
           content := "", lines := 1 },
         { path := "bx/g.tsx", fullPath := "/r/bx/g.tsx",
           content := "", lines := 1 }]) ".a.b" 4 = [".a.bb"] ∧
    completeRightmostSpec
      (buildFromFiles (fun _ _ => none) "/r"
        [{ path := "a/bb/f.tsx", fullPath := "/r/a/bb/f.tsx",
           content := "", lines := 1 },
         { path := "bx/g.tsx", fullPath := "/r/bx/g.tsx",
           content := "", lines := 1 }]) ".a.b" 4 = [".bx"] ∧
    ([".a.bb"] : List String) ≠ [".bx"] := by
  refine ⟨by decide, by decide, by decide⟩

/-! ## Well-formed project trees -/

/-- `v` has the exact shape of a file record as `buildProjectMap`
attaches it (the six fields in source order), with a non-empty path. -/
def isRecB : JS → Bool
  | .vobj [("path", .vstr p), ("type", .vstr _), ("lines", .vnum _),
           ("exports", .varr _), ("imports", .varr _), ("usedBy", .varr _)] =>
    p ≠ ""
  | _ => false

mutual

/-- Well-formedness of a project tree: a plain object each of whose
entries is either a file record under a dotted key (scanner filenames
keep their `.tsx`/`.jsx` extension, so they contain a dot) or,
recursively, a subtree. -/
def isTreeB : JS → Bool
  | .vobj fields => isTreeFieldsB fields
  | _ => false

def isTreeFieldsB : List (String × JS) → Bool
  | [] => true
  | (k, v) :: rest =>
    ((isRecB v && k.toList.any (fun c => c = '.')) || isTreeB v)
      && isTreeFieldsB rest

end

/-- A looked-up child of a well-formed tree node is a (dot-keyed) file
record or a subtree. -/
theorem lookupField_isTreeB {fields : List (String × JS)} {k : String}
    {v : JS} (htree : isTreeB (.vobj fields) = true)
    (hlk : lookupField fields k = some v) :
    (isRecB v = true ∧ k.toList.any (fun c => c = '.') = true)
      ∨ isTreeB v = true := by
  induction fields with
  | nil => cases hlk
  | cons kv rest ih =>
    rcases kv with ⟨k0, v0⟩
    have htree' : (((isRecB v0 && k0.toList.any (fun c => c = '.'))
        || isTreeB v0) = true) ∧ isTreeFieldsB rest = true := by
      have : isTreeFieldsB ((k0, v0) :: rest) = true := htree
      simpa [isTreeFieldsB, Bool.and_eq_true] using this
    simp only [lookupField] at hlk
    by_cases hk : k0 = k
    · rw [if_pos hk] at hlk
      injection hlk with h
      subst h
      rcases (Bool.or_eq_true _ _).mp htree'.1 with h | h
      · rcases (Bool.and_eq_true _ _).mp h with ⟨h1, h2⟩
        subst hk
        exact Or.inl ⟨h1, h2⟩
      · exact Or.inr h
    · rw [if_neg hk] at hlk
      exact ih (show isTreeB (.vobj rest) = true from htree'.2) hlk

/-! ## Claim C2: `.`-token completion -/

/-- Navigation as the (amended) claim words it: each segment resolves
one level deeper from the tree root by exact, case-sensitive child
lookup. -/
def navSpec : JS → List String → Option JS
  | cur, [] => some cur
  | cur, s :: rest =>
    match jsGet cur s with
    | some w => navSpec w rest
    | none => none

/-- Over a well-formed tree, the completion navigation loop (truthiness
tests, empty segments skipped by `continue`) agrees with exact-lookup
navigation over the non-empty segments, and lands on subtrees. -/
theorem navFolder_eq_navSpec :
    ∀ (parts : List String) (cur : JS),
      isTreeB cur = true →
      (∀ p ∈ parts, p.toList.any (fun c => c = '.') = false) →
      navFolder cur parts
        = navSpec cur (parts.filter (fun p => p ≠ "")) ∧
      (∀ lvl, navSpec cur (parts.filter (fun p => p ≠ "")) = some lvl →
        isTreeB lvl = true) := by
  intro parts
  induction parts with
  | nil =>
    intro cur htree _
    refine ⟨rfl, fun lvl h => ?_⟩
    injection h with h
    exact h ▸ htree
  | cons p rest ih =>
    intro cur htree hdots
    by_cases hp : p = ""
    · subst hp
      have hrec := ih cur htree (fun q hq => hdots q (List.mem_cons_of_mem _ hq))
      have h1 : navFolder cur ("" :: rest) = navFolder cur rest := by
        simp [navFolder]
      have h2 : ("" :: rest).filter (fun q => q ≠ "")
          = rest.filter (fun q => q ≠ "") := by simp
      rw [h1, h2]
      exact hrec
    · rcases cur with s | n | xs | fields
      · exact absurd htree (by simp [isTreeB])
      · exact absurd htree (by simp [isTreeB])
      · exact absurd htree (by simp [isTreeB])
      · have h2 : ((p :: rest).filter (fun q => q ≠ ""))
            = p :: rest.filter (fun q => q ≠ "") := by simp [hp]
        rcases hlk : lookupField fields p with _ | v
        · have hnav : navFolder (.vobj fields) (p :: rest) = none := by
            simp [navFolder, hp, jsGet, hlk]
          have hnav2 : navSpec (.vobj fields)
              (p :: rest.filter (fun q => q ≠ "")) = none := by
            simp [navSpec, jsGet, hlk]
          rw [hnav, h2, hnav2]
          exact ⟨rfl, fun lvl h => by cases h⟩
        · have hv : isTreeB v = true := by
            rcases lookupField_isTreeB htree hlk with ⟨_, hdot⟩ | h
            · rw [hdots p (List.mem_cons_self _ _)] at hdot
              cases hdot
            · exact h
          have htr : jsTruthy v = true := by
            rcases v with _ | _ | _ | _ <;>
              simp_all [isTreeB, jsTruthy]
          have hrec := ih v hv (fun q hq => hdots q (List.mem_cons_of_mem _ hq))
          have hstep : navFolder (.vobj fields) (p :: rest)
              = navFolder v rest := by
            simp [navFolder, hp, jsGet, hlk, htr]
          have hstep2 : navSpec (.vobj fields)
              (p :: rest.filter (fun q => q ≠ ""))
              = navSpec v (rest.filter (fun q => q ≠ "")) := by
            simp [navSpec, jsGet, hlk]
          rw [hstep, h2, hstep2]
          exact hrec

theorem startsWithStr_append (a b : String) : startsWithStr (a ++ b) a = true := by
  unfold startsWithStr
  rw [show (a ++ b).toList = a.toList ++ b.toList from rfl]
  exact List.isPrefixOf_iff_prefix.mpr (List.prefix_append _ _)

/-- **C2 (amended)**: for every well-formed index tree and `.`-token
text: each *non-empty* segment before the last resolves one level
deeper from the tree root by exact, case-sensitive child lookup (any
such failure yields the empty result; empty segments are skipped); the
last segment is a case-**insensitive** prefix filter over the
directory-typed children at that level; and every returned completion
is the reconstructed dotted pre-segment path followed by a matched
child name — so it starts with that dotted prefix, its final segment
matching the typed final segment up to ASCII case. -/
theorem completeFolder_spec (pm : ProjectMap) (text : String)
    (htree : isTreeB (.vobj pm.struct) = true) :
    (∀ s, s ∈ completeFolder pm text ↔
      (∃ lvl, navSpec (.vobj pm.struct)
          (((strSplit '.' text).dropLast).filter (fun p => p ≠ "")) = some lvl ∧
        ∃ f ∈ dirChildNames lvl,
          startsWithStr (lowerStr f)
            (lowerStr ((strSplit '.' text).getLastD "")) = true ∧
          s = dottedPfx ((strSplit '.' text).dropLast) ++ f)) ∧
    (∀ s ∈ completeFolder pm text,
      startsWithStr s (dottedPfx ((strSplit '.' text).dropLast)) = true) := by
  have hdots : ∀ p ∈ (strSplit '.' text).dropLast,
      p.toList.any (fun c => c = '.') = false := by
    intro p hp
    have hp' := List.dropLast_subset _ hp
    rcases List.mem_map.mp hp' with ⟨g, hg, rfl⟩
    have hnm := splitChar_not_mem '.' text.toList g hg
    rw [Bool.eq_false_iff]
    intro hany
    rcases List.any_eq_true.mp hany with ⟨c, hc, hceq⟩
    have hc' : c = '.' := of_decide_eq_true hceq
    subst hc'
    exact hnm hc
  obtain ⟨hnav, _⟩ := navFolder_eq_navSpec
    ((strSplit '.' text).dropLast) (.vobj pm.struct) htree hdots
  have hmem : ∀ s, s ∈ completeFolder pm text ↔
      (∃ lvl, navSpec (.vobj pm.struct)
          (((strSplit '.' text).dropLast).filter (fun p => p ≠ "")) = some lvl ∧
        ∃ f ∈ dirChildNames lvl,
          startsWithStr (lowerStr f)
            (lowerStr ((strSplit '.' text).getLastD "")) = true ∧
          s = dottedPfx ((strSplit '.' text).dropLast) ++ f) := by
    intro s
    simp only [completeFolder]
    rw [hnav]
    rcases hres : navSpec (.vobj pm.struct)
        (((strSplit '.' text).dropLast).filter (fun p => p ≠ ""))
      with _ | lvl
    · simp
    · simp only [List.mem_map, List.mem_filter, getFoldersIn, mem_sortStrings,
        Option.some.injEq]
      constructor
      · rintro ⟨f, ⟨hf1, hf2⟩, rfl⟩
        exact ⟨lvl, rfl, f, hf1, hf2, rfl⟩
      · rintro ⟨lvl', hlvl', f, hf1, hf2, rfl⟩
        subst hlvl'
        exact ⟨f, ⟨hf1, hf2⟩, rfl⟩
  refine ⟨hmem, fun s hs => ?_⟩
  rcases (hmem s).mp hs with ⟨lvl, _, f, _, _, rfl⟩
  exact startsWithStr_append _ _

/-- **C2 counterexample**: over an index holding a directory `Comp`,
the typed token `.c` completes to `.Comp`: the last-segment filter is
case-insensitive (a case-sensitive prefix filter would return nothing),
and the returned completion does not start with the typed token. -/
theorem completeFolder_case_counterexample :
    complete
      (buildFromFiles (fun _ _ => none) "/r"
        [{ path := "Comp/f.tsx", fullPath := "/r/Comp/f.tsx",
           content := "", lines := 1 }]) ".c" 2 = [".Comp"] ∧
    startsWithStr ".Comp" ".c" = false :=
  ⟨by decide, by decide⟩

theorem completeFolder_spec_witness :
    (isTreeB (.vobj (buildFromFiles (fun _ _ => none) "/r"
      [{ path := "Comp/f.tsx", fullPath := "/r/Comp/f.tsx",
         content := "", lines := 1 }]).struct) = true) ∧
    ((∀ s, s ∈ completeFolder
        (buildFromFiles (fun _ _ => none) "/r"
          [{ path := "Comp/f.tsx", fullPath := "/r/Comp/f.tsx",
             content := "", lines := 1 }]) "c" ↔
      (∃ lvl, navSpec (.vobj (buildFromFiles (fun _ _ => none) "/r"
          [{ path := "Comp/f.tsx", fullPath := "/r/Comp/f.tsx",
             content := "", lines := 1 }]).struct)
          (((strSplit '.' "c").dropLast).filter (fun p => p ≠ "")) = some lvl ∧
        ∃ f ∈ dirChildNames lvl,
          startsWithStr (lowerStr f)
            (lowerStr ((strSplit '.' "c").getLastD "")) = true ∧
          s = dottedPfx ((strSplit '.' "c").dropLast) ++ f)) ∧
    (∀ s ∈ completeFolder
        (buildFromFiles (fun _ _ => none) "/r"
          [{ path := "Comp/f.tsx", fullPath := "/r/Comp/f.tsx",
             content := "", lines := 1 }]) "c",
      startsWithStr s (dottedPfx ((strSplit '.' "c").dropLast)) = true)) :=
  ⟨by decide, completeFolder_spec _ "c" (by decide)⟩

/-! ## Claim C4: qualified resolution is single-level -/

/-- A scanned file whose path places a directory named `path` two
levels below the root: the built tree is
`src ↦ { utils ↦ { path ↦ { helpers.tsx ↦ record } } }`. -/
def c4scan : List ScannedFile :=
  [{ path := "src/utils/path/helpers.tsx",
     fullPath := "/r/src/utils/path/helpers.tsx",
     content := "", lines := 1 }]

/-- **C4**: the code throws where the claim asserts `null`.  The
reference `.src#helpers` is inside the resolver's grammar, and in the
index built from the single scanned file `src/utils/path/helpers.tsx`
the name `helpers` is not a direct child of the `src` directory, so the
claim — and §7's "returned as a null/failure value, never thrown" —
predicts the run returns `null`.  Instead, the final direct-children
loop reaches the child `utils`, whose own entry named `path` is a
truthy subdirectory object: the guard
`item && typeof item === 'object' && item.path` passes and
`item.path.split('/')` throws a `TypeError` out of `resolveReference`. -/
theorem resolveReference_qualified_throws :
    (buildFromFiles (fun _ _ => none) "/r" c4scan).files
      = ["src/utils/path/helpers.tsx"] ∧
    refParse ".src#helpers" = some (some "src", "helpers") ∧
    resolveReference (buildFromFiles (fun _ _ => none) "/r" c4scan)
      ".src#helpers" = .error () :=
  ⟨rfl, rfl, rfl⟩

/-! ## Claim C5: the tree holds exactly the scanned files

The claim's walk: split a relative path on `/` and follow child edges
from the tree root. -/

def walkPath : JS → List String → Option JS
  | v, [] => some v
  | v, s :: rest =>
    match jsGet v s with
    | some w => walkPath w rest
    | none => none

/-- Non-object values: the data stored inside a file record. -/
def isShallowB : JS → Bool
  | .vobj _ => false
  | _ => true

/-- The exact shape of a record value as `buildProjectMap` writes it. -/
def IsRecordJS (v : JS) : Prop :=
  ∃ p t n es imps us, v = .vobj [("path", .vstr p), ("type", .vstr t),
    ("lines", .vnum n), ("exports", .varr es), ("imports", .varr imps),
    ("usedBy", .varr us)]

theorem IsRecordJS_fileRecordJS (file : ScannedFile) (parsed : ParsedFile) :
    IsRecordJS (fileRecordJS file parsed) :=
  ⟨file.path, _, file.lines, parsed.exports, parsed.imports, [], rfl⟩

theorem recordPath_fileRecordJS (file : ScannedFile) (parsed : ParsedFile) :
    recordPath (fileRecordJS file parsed) = some file.path := rfl

/-- Structural soundness of tree values: a record, or an object all of
whose entries are again sound. -/
inductive WellStruct : JS → Prop
  | record {v : JS} : IsRecordJS v → WellStruct v
  | dir {fields : List (String × JS)} :
      (∀ kv ∈ fields, WellStruct kv.2) → WellStruct (.vobj fields)

theorem WellStruct_vobj {v : JS} (h : WellStruct v) :
    ∃ fields, v = .vobj fields := by
  cases h with
  | record hr => rcases hr with ⟨p, t, n, es, imps, us, rfl⟩; exact ⟨_, rfl⟩
  | dir _ => exact ⟨_, rfl⟩

theorem lookupField_mem {fields : List (String × JS)} {k : String} {v : JS}
    (h : lookupField fields k = some v) : (k, v) ∈ fields := by
  induction fields with
  | nil => cases h
  | cons kv rest ih =>
    rcases kv with ⟨k0, v0⟩
    simp only [lookupField] at h
    by_cases hk : k0 = k
    · rw [if_pos hk] at h
      injection h with h
      subst hk; subst h
      exact List.mem_cons_self _ _
    · rw [if_neg hk] at h
      exact List.mem_cons_of_mem _ (ih h)

/-- Shallow values stay shallow under property access. -/
theorem jsGet_shallow {v w : JS} {k : String} (hs : isShallowB v = true)
    (h : jsGet v k = some w) : isShallowB w = true := by
  rcases v with s | n | xs | fields
  · simp only [jsGet] at h
    by_cases hl : k = "length"
    · rw [if_pos hl] at h; injection h with h; subst h; rfl
    · rw [if_neg hl] at h
      rcases hci : canonIndex k with _ | i
      · rw [hci] at h; cases h
      · rw [hci] at h
        simp only [Option.map_eq_some'] at h
        rcases h with ⟨c, _, rfl⟩
        rfl
  · cases h
  · simp only [jsGet] at h
    by_cases hl : k = "length"
    · rw [if_pos hl] at h; injection h with h; subst h; rfl
    · rw [if_neg hl] at h
      rcases hci : canonIndex k with _ | i
      · rw [hci] at h; cases h
      · rw [hci] at h
        simp only [Option.map_eq_some'] at h
        rcases h with ⟨c, _, rfl⟩
        rfl
  · cases hs

theorem walkPath_shallow {v w : JS} {σ : List String}
    (hs : isShallowB v = true) (h : walkPath v σ = some w) :
    isShallowB w = true := by
  induction σ generalizing v with
  | nil => injection h with h; subst h; exact hs
  | cons s rest ih =>
    simp only [walkPath] at h
    rcases hg : jsGet v s with _ | u
    · rw [hg] at h; cases h
    · rw [hg] at h
      exact ih (jsGet_shallow hs hg) h

theorem recordPath_shallow {v : JS} (hs : isShallowB v = true) :
    recordPath v = none := by
  rcases v with _ | _ | _ | _ <;> first | rfl | cases hs

/-- Looking up inside a record yields shallow data. -/
theorem jsGet_record_shallow {r w : JS} {k : String} (hr : IsRecordJS r)
    (h : jsGet r k = some w) : isShallowB w = true := by
  rcases hr with ⟨p, t, n, es, imps, us, rfl⟩
  have hmem := lookupField_mem (h : lookupField _ k = some w)
  simp only [List.mem_cons, List.not_mem_nil, or_false, Prod.mk.injEq] at hmem
  rcases hmem with ⟨_, rfl⟩ | ⟨_, rfl⟩ | ⟨_, rfl⟩ | ⟨_, rfl⟩ | ⟨_, rfl⟩ | ⟨_, rfl⟩
    <;> rfl

/-- Walking strictly into a record yields shallow data. -/
theorem walkPath_record_shallow {r v : JS} {s : String} {τ : List String}
    (hr : IsRecordJS r) (h : walkPath r (s :: τ) = some v) :
    isShallowB v = true := by
  simp only [walkPath] at h
  rcases hg : jsGet r s with _ | u
  · rw [hg] at h; cases h
  · rw [hg] at h
    exact walkPath_shallow (jsGet_record_shallow hr hg) h

/-- A record's `path` field is set. -/
theorem recordPath_IsRecordJS {v : JS} (hr : IsRecordJS v) :
    ∃ q, recordPath v = some q := by
  rcases hr with ⟨p, t, n, es, imps, us, rfl⟩
  exact ⟨p, rfl⟩

/-- An object whose entries are sound is not path-tagged. -/
theorem recordPath_none_of_children {fields : List (String × JS)}
    (h : ∀ kv ∈ fields, WellStruct kv.2) :
    recordPath (.vobj fields) = none := by
  simp only [recordPath]
  rcases hlk : lookupField fields "path" with _ | w
  · rfl
  · have hws := h _ (lookupField_mem hlk)
    rcases WellStruct_vobj hws with ⟨flds, rfl⟩
    rfl

/-- A walk from a sound value lands on a sound value or on shallow
record data. -/
theorem WellStruct_walk {w v : JS} {σ : List String}
    (hws : WellStruct w) (h : walkPath w σ = some v) :
    WellStruct v ∨ isShallowB v = true := by
  induction σ generalizing w with
  | nil => injection h with h; subst h; exact Or.inl hws
  | cons s rest ih =>
    simp only [walkPath] at h
    rcases hg : jsGet w s with _ | w'
    · rw [hg] at h; cases h
    · rw [hg] at h
      cases hws with
      | record hr =>
        exact Or.inr (walkPath_shallow (jsGet_record_shallow hr hg) h)
      | dir hch =>
        exact ih (hch _ (lookupField_mem hg)) h

/-- A walk reaching shallow data passed strictly through a record. -/
theorem WellStruct_walk_shallow {w v : JS} {σ : List String}
    (hws : WellStruct w) (h : walkPath w σ = some v)
    (hsh : isShallowB v = true) :
    ∃ π v0, π <+: σ ∧ π ≠ σ ∧ walkPath w π = some v0 ∧ IsRecordJS v0 := by
  induction σ generalizing w with
  | nil =>
    injection h with h
    subst h
    rcases WellStruct_vobj hws with ⟨flds, rfl⟩
    cases hsh
  | cons s rest ih =>
    simp only [walkPath] at h
    rcases hg : jsGet w s with _ | w'
    · rw [hg] at h; cases h
    · rw [hg] at h
      cases hws with
      | record hr =>
        exact ⟨[], w, List.nil_prefix, by simp, rfl, hr⟩
      | dir hch =>
        obtain ⟨π, v0, h1, h2, h3, h4⟩ :=
          ih (hch _ (lookupField_mem hg)) h
        refine ⟨s :: π, v0, List.cons_prefix_cons.mpr ⟨rfl, h1⟩, ?_, ?_, h4⟩
        · intro heq
          injection heq with _ heq
          exact h2 heq
        · simp only [walkPath, hg]
          exact h3

/-- A sound value carrying the path tag is a record. -/
theorem WellStruct_recordPath {v : JS} (hws : WellStruct v)
    {q : String} (h : recordPath v = some q) : IsRecordJS v := by
  cases hws with
  | record hr => exact hr
  | dir hch => rw [recordPath_none_of_children hch] at h; cases h

/-! ### `setField` lemmas -/

theorem lookupField_setField_self :
    ∀ (fields : List (String × JS)) (k : String) (v : JS),
      lookupField (setField fields k v) k = some v := by
  intro fields k v
  induction fields with
  | nil => simp [setField, lookupField]
  | cons kv rest ih =>
    rcases kv with ⟨k0, v0⟩
    by_cases hk : k0 = k
    · simp [setField, hk, lookupField]
    · simp [setField, hk, lookupField, ih]

theorem lookupField_setField_other :
    ∀ (fields : List (String × JS)) (k k' : String) (v : JS), k' ≠ k →
      lookupField (setField fields k v) k' = lookupField fields k' := by
  intro fields k k' v hk
  induction fields with
  | nil =>
    simp only [setField, lookupField]
    rw [if_neg (fun h : k = k' => hk h.symm)]
  | cons kv rest ih =>
    rcases kv with ⟨k0, v0⟩
    by_cases hk0 : k0 = k
    · rw [setField, if_pos hk0]
      simp only [lookupField]
      rw [if_neg (fun h : k = k' => hk h.symm),
        if_neg (fun h : k0 = k' => hk ((hk0.symm.trans h).symm))]
    · by_cases hk0' : k0 = k'
      · rw [setField, if_neg hk0]
        simp only [lookupField]
        rw [if_pos hk0', if_pos hk0']
      · rw [setField, if_neg hk0]
        simp only [lookupField]
        rw [if_neg hk0', if_neg hk0', ih]

theorem mem_setField {fields : List (String × JS)} {k : String} {v : JS}
    {kv' : String × JS} (h : kv' ∈ setField fields k v) :
    kv' ∈ fields ∨ kv' = (k, v) := by
  induction fields with
  | nil =>
    simp only [setField, List.mem_singleton] at h
    exact Or.inr h
  | cons kv rest ih =>
    rcases kv with ⟨k0, v0⟩
    by_cases hk : k0 = k
    · rw [setField, if_pos hk] at h
      rcases List.mem_cons.mp h with rfl | h
      · exact Or.inr rfl
      · exact Or.inl (List.mem_cons_of_mem _ h)
    · rw [setField, if_neg hk] at h
      rcases List.mem_cons.mp h with rfl | h
      · exact Or.inl (List.mem_cons_self _ _)
      · rcases ih h with h | h
        · exact Or.inl (List.mem_cons_of_mem _ h)
        · exact Or.inr h

/-! ### How `insertRec` transforms walks -/

/-- Precondition for inserting along `segs` into `S`: every strictly
shorter walk along `segs` that succeeds lands on an object whose
entries are sound (in particular, not on a record and not on record
data). -/
def PreIns (S : List (String × JS)) (segs : List String) : Prop :=
  ∀ π v, π <+: segs → π ≠ segs → walkPath (.vobj S) π = some v →
    ∃ flds, v = .vobj flds ∧ ∀ kv ∈ flds, WellStruct kv.2

theorem PreIns_nil (segs : List String) :
    PreIns ([] : List (String × JS)) segs := by
  intro π w _ _ hw
  rcases π with _ | ⟨x, π'⟩
  · injection hw with hw
    exact ⟨[], hw.symm, by simp⟩
  · simp [walkPath, jsGet, lookupField] at hw

theorem PreIns_child {S : List (String × JS)} {s : String}
    {rest : List String} {sub : List (String × JS)}
    (hlk : lookupField S s = some (.vobj sub))
    (hpre : PreIns S (s :: rest)) : PreIns sub rest := by
  intro π w hπ hπne hw
  refine hpre (s :: π) w (List.cons_prefix_cons.mpr ⟨rfl, hπ⟩) ?_ ?_
  · intro heq
    injection heq with _ h
    exact hπne h
  · simp only [walkPath, jsGet, hlk]
    exact hw

theorem insertRec_cons_none {rec : JS} {s r2 : String} {rest2 : List String}
    {S : List (String × JS)} (hlk : lookupField S s = none) :
    insertRec rec (s :: r2 :: rest2) S
      = setField S s (.vobj (insertRec rec (r2 :: rest2) [])) := by
  simp [insertRec, hlk]

theorem insertRec_cons_some {rec : JS} {s r2 : String} {rest2 : List String}
    {S sub : List (String × JS)}
    (hlk : lookupField S s = some (.vobj sub)) :
    insertRec rec (s :: r2 :: rest2) S
      = setField S s (.vobj (insertRec rec (r2 :: rest2) sub)) := by
  simp [insertRec, hlk, jsTruthy]

/-- Inserting under key `s` leaves every other key's binding alone. -/
theorem insertRec_lookup_other (rec : JS) (s : String) (rest : List String)
    (S : List (String × JS)) (t : String) (hts : t ≠ s) :
    lookupField (insertRec rec (s :: rest) S) t = lookupField S t := by
  rcases rest with _ | ⟨r2, rest2⟩
  · exact lookupField_setField_other S s t rec hts
  · simp only [insertRec]
    rcases hlk : lookupField S s with _ | v
    · simp only [hlk]
      exact lookupField_setField_other S s t _ hts
    · simp only [hlk]
      rcases v with str | n | xs | sub
      · by_cases hstr : str = ""
        · subst hstr
          simp only [jsTruthy]
          exact lookupField_setField_other S s t _ hts
        · simp only [jsTruthy, hstr]
          simp [hstr]
      · rcases n with _ | n
        · simp only [jsTruthy]
          exact lookupField_setField_other S s t _ hts
        · simp [jsTruthy]
      · rfl
      · simp only [jsTruthy]
        exact lookupField_setField_other S s t _ hts

/-- Walking to the inserted position (and beyond) reads the inserted
record. -/
theorem walk_insert_self (rec : JS) :
    ∀ (segs : List String) (S : List (String × JS)),
      segs ≠ [] → PreIns S segs →
      ∀ τ, walkPath (.vobj (insertRec rec segs S)) (segs ++ τ)
        = walkPath rec τ := by
  intro segs
  induction segs with
  | nil => intro S h; exact absurd rfl h
  | cons s rest ih =>
    intro S _ hpre τ
    rcases rest with _ | ⟨r2, rest2⟩
    · show walkPath (.vobj (setField S s rec)) ([s] ++ τ) = walkPath rec τ
      simp only [List.cons_append, List.nil_append, walkPath, jsGet,
        lookupField_setField_self]
      rfl
    · rcases hlk : lookupField S s with _ | v
      · rw [insertRec_cons_none hlk]
        simp only [List.cons_append, walkPath, jsGet, lookupField_setField_self]
        exact ih [] (by simp) (PreIns_nil _) τ
      · obtain ⟨sub, rfl, _⟩ := hpre [s] v ⟨r2 :: rest2, rfl⟩ (by simp)
          (by simp [walkPath, jsGet, hlk])
        rw [insertRec_cons_some hlk]
        simp only [List.cons_append, walkPath, jsGet, lookupField_setField_self]
        exact ih sub (by simp) (PreIns_child hlk hpre) τ

/-- Walks incomparable with the inserted path are unchanged. -/
theorem walk_insert_other (rec : JS) :
    ∀ (segs : List String) (S : List (String × JS)) (τ : List String),
      segs ≠ [] → PreIns S segs →
      ¬ (segs <+: τ) → ¬ (τ <+: segs) →
      walkPath (.vobj (insertRec rec segs S)) τ = walkPath (.vobj S) τ := by
  intro segs
  induction segs with
  | nil => intro S τ h; exact absurd rfl h
  | cons s rest ih =>
    intro S τ _ hpre hc1 hc2
    rcases τ with _ | ⟨t, τ'⟩
    · exact absurd List.nil_prefix hc2
    · by_cases hts : t = s
      · subst hts
        have hc1' : ¬ (rest <+: τ') :=
          fun h => hc1 (List.cons_prefix_cons.mpr ⟨rfl, h⟩)
        have hc2' : ¬ (τ' <+: rest) :=
          fun h => hc2 (List.cons_prefix_cons.mpr ⟨rfl, h⟩)
        rcases rest with _ | ⟨r2, rest2⟩
        · exact absurd List.nil_prefix hc1'
        · rcases hlk : lookupField S t with _ | v
          · rw [insertRec_cons_none hlk]
            simp only [walkPath, jsGet, lookupField_setField_self, hlk]
            rw [ih [] τ' (by simp) (PreIns_nil _) hc1' hc2']
            rcases τ' with _ | ⟨x, τ''⟩
            · exact absurd List.nil_prefix hc2'
            · simp [walkPath, jsGet, lookupField]
          · obtain ⟨sub, rfl, _⟩ := hpre [t] v ⟨r2 :: rest2, rfl⟩ (by simp)
              (by simp [walkPath, jsGet, hlk])
            rw [insertRec_cons_some hlk]
            simp only [walkPath, jsGet, lookupField_setField_self, hlk]
            exact ih sub τ' (by simp) (PreIns_child hlk hpre) hc1' hc2'
      · simp only [walkPath, jsGet,
          insertRec_lookup_other rec s rest S t hts]

/-- Inserting a sound record into a sound structure keeps every entry
sound. -/
theorem insertRec_WellStruct {rec : JS} (hrec : WellStruct rec) :
    ∀ (segs : List String) (S : List (String × JS)),
      PreIns S segs → (∀ kv ∈ S, WellStruct kv.2) →
      ∀ kv ∈ insertRec rec segs S, WellStruct kv.2 := by
  intro segs
  induction segs with
  | nil => intro S _ hws kv hkv; exact hws kv hkv
  | cons s rest ih =>
    intro S hpre hws kv hkv
    rcases rest with _ | ⟨r2, rest2⟩
    · rcases mem_setField hkv with h | h
      · exact hws kv h
      · rw [h]; exact hrec
    · rcases hlk : lookupField S s with _ | v
      · rw [insertRec_cons_none hlk] at hkv
        rcases mem_setField hkv with h | h
        · exact hws kv h
        · rw [h]
          exact WellStruct.dir (ih [] (PreIns_nil _) (by simp))
      · obtain ⟨sub, rfl, hsubws⟩ := hpre [s] v ⟨r2 :: rest2, rfl⟩ (by simp)
          (by simp [walkPath, jsGet, hlk])
        rw [insertRec_cons_some hlk] at hkv
        rcases mem_setField hkv with h | h
        · exact hws kv h
        · rw [h]
          exact WellStruct.dir (ih sub (PreIns_child hlk hpre) hsubws)

/-- Walks to strict prefixes of the inserted path land on sound
directory objects. -/
theorem walk_insert_prefix (rec : JS) :
    ∀ (segs : List String) (S : List (String × JS)) (τ : List String),
      segs ≠ [] → PreIns S segs → (∀ kv ∈ S, WellStruct kv.2) →
      WellStruct rec →
      τ <+: segs → τ ≠ segs →
      ∃ flds, walkPath (.vobj (insertRec rec segs S)) τ = some (.vobj flds)
        ∧ (∀ kv ∈ flds, WellStruct kv.2) := by
  intro segs
  induction segs with
  | nil => intro S τ h; exact absurd rfl h
  | cons s rest ih =>
    intro S τ _ hpre hws hrec hτ hτne
    rcases τ with _ | ⟨t, τ'⟩
    · exact ⟨insertRec rec (s :: rest) S, rfl,
        insertRec_WellStruct hrec _ S hpre hws⟩
    · obtain ⟨hts, hτ'⟩ := List.cons_prefix_cons.mp hτ
      subst hts
      have hτ'ne : τ' ≠ rest := fun h => hτne (by rw [h])
      rcases rest with _ | ⟨r2, rest2⟩
      · rcases τ' with _ | _
        · exact absurd rfl hτ'ne
        · simp at hτ'
      · rcases hlk : lookupField S t with _ | v
        · rw [insertRec_cons_none hlk]
          simp only [walkPath, jsGet, lookupField_setField_self]
          exact ih [] τ' (by simp) (PreIns_nil _) (by simp) hrec hτ' hτ'ne
        · obtain ⟨sub, rfl, hsubws⟩ := hpre [t] v ⟨r2 :: rest2, rfl⟩ (by simp)
            (by simp [walkPath, jsGet, hlk])
          rw [insertRec_cons_some hlk]
          simp only [walkPath, jsGet, lookupField_setField_self]
          exact ih sub τ' (by simp) (PreIns_child hlk hpre) hsubws hrec hτ' hτ'ne

/-! ### The build-loop invariant -/

/-- Invariant of the builder's loop: `S` is a sound structure whose
record positions are exactly the (split path, record) pairs of `ins`,
and whose directories lie only along inserted paths. -/
def BuildInv (S : List (String × JS)) (ins : List (List String × JS)) :
    Prop :=
  (∀ kv ∈ S, WellStruct kv.2) ∧
  (∀ pr ∈ ins, walkPath (.vobj S) pr.1 = some pr.2) ∧
  (∀ σ v, walkPath (.vobj S) σ = some v → (∃ q, recordPath v = some q) →
    σ ∈ ins.map Prod.fst) ∧
  (∀ σ v, walkPath (.vobj S) σ = some v → isShallowB v = false →
    ¬ IsRecordJS v → σ = [] ∨ ∃ π ∈ ins.map Prod.fst, σ <+: π ∧ σ ≠ π)

theorem BuildInv_nil : BuildInv [] [] := by
  refine ⟨by simp, by simp, ?_, ?_⟩
  · intro σ v hw hq
    rcases σ with _ | ⟨s, σ'⟩
    · injection hw with hw
      rcases hq with ⟨q, hq⟩
      rw [← hw] at hq
      simp [recordPath, lookupField] at hq
    · simp [walkPath, jsGet, lookupField] at hw
  · intro σ v hw _ _
    rcases σ with _ | ⟨s, σ'⟩
    · exact Or.inl rfl
    · simp [walkPath, jsGet, lookupField] at hw

/-- One step of the build loop preserves the invariant, provided the
new path duplicates no inserted path and is prefix-incomparable with
every inserted path. -/
theorem BuildInv_insert {S : List (String × JS)}
    {ins : List (List String × JS)} {segs : List String} {rec : JS}
    (hinv : BuildInv S ins) (hrec : IsRecordJS rec) (hne : segs ≠ [])
    (hnotin : segs ∉ ins.map Prod.fst)
    (hpf1 : ∀ π ∈ ins.map Prod.fst, π <+: segs → π = segs)
    (hpf2 : ∀ π ∈ ins.map Prod.fst, segs <+: π → segs = π) :
    BuildInv (insertRec rec segs S) (ins ++ [(segs, rec)]) := by
  obtain ⟨hws, hins, hrecpos, hdirpos⟩ := hinv
  have hpre : PreIns S segs := by
    intro π v hπ hπne hw
    rcases WellStruct_walk (WellStruct.dir hws) hw with hv | hsh
    · cases hv with
      | record hr =>
        have hmem := hrecpos π v hw (recordPath_IsRecordJS hr)
        exact absurd (hpf1 π hmem hπ) hπne
      | dir hch => exact ⟨_, rfl, hch⟩
    · obtain ⟨π0, v0, h01, h02, h03, h04⟩ :=
        WellStruct_walk_shallow (WellStruct.dir hws) hw hsh
      have hmem := hrecpos π0 v0 h03 (recordPath_IsRecordJS h04)
      have h06 := hpf1 π0 hmem (h01.trans hπ)
      rw [h06] at h01
      have : π = segs :=
        hπ.eq_of_length (le_antisymm hπ.length_le h01.length_le)
      exact absurd this hπne
  refine ⟨insertRec_WellStruct (WellStruct.record hrec) segs S hpre hws,
    ?_, ?_, ?_⟩
  · intro pr hpr
    rcases List.mem_append.mp hpr with hpr | hpr
    · have hmem : pr.1 ∈ ins.map Prod.fst := List.mem_map_of_mem _ hpr
      have h1 : ¬ segs <+: pr.1 :=
        fun h => hnotin ((hpf2 _ hmem h) ▸ hmem)
      have h2 : ¬ pr.1 <+: segs :=
        fun h => hnotin ((hpf1 _ hmem h) ▸ hmem)
      rw [walk_insert_other rec segs S pr.1 hne hpre h1 h2]
      exact hins pr hpr
    · rcases List.mem_singleton.mp hpr with rfl
      have := walk_insert_self rec segs S hne hpre []
      rw [List.append_nil] at this
      exact this
  · intro σ v hw hq
    by_cases hc1 : segs <+: σ
    · rcases hc1 with ⟨τ, rfl⟩
      rcases τ with _ | ⟨t, τ'⟩
      · simp [List.map_append]
      · rw [walk_insert_self rec segs S hne hpre (t :: τ')] at hw
        have hsh := walkPath_record_shallow hrec hw
        rcases hq with ⟨q, hq⟩
        rw [recordPath_shallow hsh] at hq
        cases hq
    · by_cases hc2 : σ <+: segs
      · have hσne : σ ≠ segs := fun h => hc1 (h ▸ List.prefix_refl _)
        obtain ⟨flds, hwf, hchf⟩ := walk_insert_prefix rec segs S σ hne hpre
          hws (WellStruct.record hrec) hc2 hσne
        rw [hwf] at hw
        injection hw with hw
        rcases hq with ⟨q, hq⟩
        rw [← hw] at hq
        rw [recordPath_none_of_children hchf] at hq
        cases hq
      · rw [walk_insert_other rec segs S σ hne hpre hc1 hc2] at hw
        have := hrecpos σ v hw hq
        simp only [List.map_append, List.mem_append]
        exact Or.inl this
  · intro σ v hw hobj hnr
    by_cases hc1 : segs <+: σ
    · rcases hc1 with ⟨τ, rfl⟩
      rcases τ with _ | ⟨t, τ'⟩
      · have hws' := walk_insert_self rec segs S hne hpre []
        rw [List.append_nil] at hws'
        rw [List.append_nil] at hw
        rw [hws'] at hw
        injection hw with hw
        exact absurd (hw ▸ hrec) hnr
      · rw [walk_insert_self rec segs S hne hpre (t :: τ')] at hw
        have hsh := walkPath_record_shallow hrec hw
        rw [hobj] at hsh
        cases hsh
    · by_cases hc2 : σ <+: segs
      · have hσne : σ ≠ segs := fun h => hc1 (h ▸ List.prefix_refl _)
        refine Or.inr ⟨segs, ?_, hc2, hσne⟩
        simp [List.map_append]
      · rw [walk_insert_other rec segs S σ hne hpre hc1 hc2] at hw
        rcases hdirpos σ v hw hobj hnr with h | ⟨π, hπm, hπ1, hπ2⟩
        · exact Or.inl h
        · refine Or.inr ⟨π, ?_, hπ1, hπ2⟩
          simp only [List.map_append, List.mem_append]
          exact Or.inl hπm

theorem strSplit_ne_nil (sep : Char) (s : String) : strSplit sep s ≠ [] := by
  unfold strSplit
  intro h
  exact splitChar_ne_nil sep s.toList (List.map_eq_nil_iff.mp h)

/-- `List.count` agrees across the two lawful `BEq` instances on
`List String`. -/
theorem count_bridge (σ : List String) (l : List (List String)) :
    l.count σ = @List.count _ instBEqOfDecidableEq σ l := by
  induction l with
  | nil => rfl
  | cons a t ih =>
    rw [List.count_cons, @List.count_cons _ instBEqOfDecidableEq, ih]
    by_cases h : a = σ
    · subst h; simp
    · simp [h]

/-- The structure accumulator of the build loop is the iterated
insertion. -/
theorem buildSteps_struct
    (extract : String → String → Option (List String × List String)) :
    ∀ (todo : List ScannedFile)
      (acc : List (String × JS) × List String × List String),
      (todo.foldl (buildStep extract) acc).1
        = todo.foldl (fun S f => insertRec
            (fileRecordJS f (parseFile extract f.content f.path))
            (strSplit '/' f.path) S) acc.1 := by
  intro todo
  induction todo with
  | nil => intro acc; rfl
  | cons f fs ih =>
    intro acc
    rw [List.foldl_cons, List.foldl_cons, ih]
    rfl

/-- Folding the whole build loop from an invariant-satisfying state
keeps the invariant, given global uniqueness and prefix-freedom. -/
theorem build_fold_inv
    (extract : String → String → Option (List String × List String)) :
    ∀ (todo : List ScannedFile) (S : List (String × JS))
      (ins : List (List String × JS)),
      BuildInv S ins →
      ((ins.map Prod.fst)
        ++ todo.map (fun f => strSplit '/' f.path)).Nodup →
      (∀ a ∈ (ins.map Prod.fst)
          ++ todo.map (fun f => strSplit '/' f.path),
       ∀ b ∈ (ins.map Prod.fst)
          ++ todo.map (fun f => strSplit '/' f.path),
        a <+: b → a = b) →
      BuildInv
        (todo.foldl (fun S f => insertRec
          (fileRecordJS f (parseFile extract f.content f.path))
          (strSplit '/' f.path) S) S)
        (ins ++ todo.map (fun f => (strSplit '/' f.path,
          fileRecordJS f (parseFile extract f.content f.path)))) := by
  intro todo
  induction todo with
  | nil => intro S ins hinv _ _; simpa using hinv
  | cons f fs ih =>
    intro S ins hinv hnd hpf
    have hmemsegs : strSplit '/' f.path ∈ (ins.map Prod.fst)
        ++ (f :: fs).map (fun f => strSplit '/' f.path) := by
      simp
    have hnotin : strSplit '/' f.path ∉ ins.map Prod.fst := by
      intro hmem
      rcases List.nodup_append.mp hnd with ⟨_, _, hdisj⟩
      exact hdisj hmem (by simp)
    have hpf1 : ∀ π ∈ ins.map Prod.fst, π <+: strSplit '/' f.path →
        π = strSplit '/' f.path := by
      intro π hπ h
      exact hpf π (List.mem_append_left _ hπ) _ hmemsegs h
    have hpf2 : ∀ π ∈ ins.map Prod.fst, strSplit '/' f.path <+: π →
        strSplit '/' f.path = π := by
      intro π hπ h
      exact hpf _ hmemsegs π (List.mem_append_left _ hπ) h
    have hstep := BuildInv_insert hinv
      (IsRecordJS_fileRecordJS f (parseFile extract f.content f.path))
      (strSplit_ne_nil '/' f.path) hnotin hpf1 hpf2
    have hlist : ((ins ++ [(strSplit '/' f.path,
        fileRecordJS f (parseFile extract f.content f.path))]).map Prod.fst)
        ++ fs.map (fun f => strSplit '/' f.path)
        = (ins.map Prod.fst)
          ++ (f :: fs).map (fun f => strSplit '/' f.path) := by
      simp
    have hrec := ih _ _ hstep (by rw [hlist]; exact hnd)
      (by rw [hlist]; exact hpf)
    rw [List.foldl_cons, List.map_cons]
    have hassoc : ins ++ (strSplit '/' f.path,
        fileRecordJS f (parseFile extract f.content f.path))
          :: fs.map (fun f => (strSplit '/' f.path,
            fileRecordJS f (parseFile extract f.content f.path)))
        = (ins ++ [(strSplit '/' f.path,
            fileRecordJS f (parseFile extract f.content f.path))])
          ++ fs.map (fun f => (strSplit '/' f.path,
            fileRecordJS f (parseFile extract f.content f.path))) := by
      simp
    rw [hassoc]
    exact hrec

/-- **C5**: building an index from a scanned file sequence with
pairwise-distinct, prefix-free split paths yields a tree whose file
record leaves are exactly the scanned files: walking each `allFiles`
entry's split path reaches a record carrying that path, and every walk
that reaches a path-tagged record does so at a position held by exactly
one `allFiles` entry. -/
theorem buildProjectMap_tree_bijection
    (extract : String → String → Option (List String × List String))
    (rootDir : String) (scanned : List ScannedFile)
    (hnd : (scanned.map (fun f => strSplit '/' f.path)).Nodup)
    (hpf : ∀ f ∈ scanned, ∀ g ∈ scanned,
      strSplit '/' f.path <+: strSplit '/' g.path →
      strSplit '/' f.path = strSplit '/' g.path) :
    (∀ p ∈ (buildFromFiles extract rootDir scanned).files,
      ∃ v, walkPath (.vobj (buildFromFiles extract rootDir scanned).struct)
          (strSplit '/' p) = some v ∧ recordPath v = some p) ∧
    (∀ (σ : List String) (v : JS),
      walkPath (.vobj (buildFromFiles extract rootDir scanned).struct) σ
        = some v →
      (∃ q, recordPath v = some q) →
      ((buildFromFiles extract rootDir scanned).files.map
        (fun p => strSplit '/' p)).count σ = 1) := by
  have hfiles : (buildFromFiles extract rootDir scanned).files
      = scanned.map (fun f => f.path) := by
    show (scanned.foldl (buildStep extract) ([], [], [])).2.1 = _
    rw [buildSteps_files]
    simp
  have hstruct : (buildFromFiles extract rootDir scanned).struct
      = scanned.foldl (fun S f => insertRec
          (fileRecordJS f (parseFile extract f.content f.path))
          (strSplit '/' f.path) S) [] := by
    show (scanned.foldl (buildStep extract) ([], [], [])).1 = _
    rw [buildSteps_struct]
  have hinv := build_fold_inv extract scanned [] [] BuildInv_nil
    (by simpa using hnd)
    (by
      intro a ha b hb hab
      simp only [List.map_nil, List.nil_append, List.mem_map] at ha hb
      rcases ha with ⟨f, hf, rfl⟩
      rcases hb with ⟨g, hg, rfl⟩
      exact hpf f hf g hg hab)
  obtain ⟨_, hins, hrecpos, _⟩ := hinv
  have hsplits : (buildFromFiles extract rootDir scanned).files.map
      (fun p => strSplit '/' p)
      = scanned.map (fun f => strSplit '/' f.path) := by
    rw [hfiles, List.map_map]
    rfl
  constructor
  · intro p hp
    rw [hfiles] at hp
    rcases List.mem_map.mp hp with ⟨f, hf, rfl⟩
    refine ⟨fileRecordJS f (parseFile extract f.content f.path), ?_,
      recordPath_fileRecordJS f _⟩
    rw [hstruct]
    have hpr := hins (strSplit '/' f.path,
      fileRecordJS f (parseFile extract f.content f.path))
      (by
        simp only [List.nil_append, List.mem_map]
        exact ⟨f, hf, rfl⟩)
    exact hpr
  · intro σ v hw hq
    rw [hstruct] at hw
    have hmem := hrecpos σ v hw hq
    simp only [List.nil_append, List.map_map] at hmem
    rw [hsplits, count_bridge]
    apply List.count_eq_one_of_mem hnd
    simpa using hmem

/-- A concrete two-file scan used to witness C5. -/
def c5scan : List ScannedFile :=
  [{ path := "src/Button.tsx", fullPath := "", content := "", lines := 1 },
   { path := "src/forms/Login.tsx", fullPath := "", content := "", lines := 2 }]

/-- Witness for C5 on a concrete two-file scan. -/
theorem buildProjectMap_tree_bijection_witness :
    ((c5scan.map (fun f => strSplit '/' f.path)).Nodup) ∧
    (∀ f ∈ c5scan, ∀ g ∈ c5scan,
      strSplit '/' f.path <+: strSplit '/' g.path →
      strSplit '/' f.path = strSplit '/' g.path) ∧
    ((∀ p ∈ (buildFromFiles (fun _ _ => none) "/r" c5scan).files,
      ∃ v, walkPath (.vobj (buildFromFiles (fun _ _ => none) "/r"
          c5scan).struct)
          (strSplit '/' p) = some v ∧ recordPath v = some p) ∧
    (∀ (σ : List String) (v : JS),
      walkPath (.vobj (buildFromFiles (fun _ _ => none) "/r"
          c5scan).struct) σ = some v →
      (∃ q, recordPath v = some q) →
      ((buildFromFiles (fun _ _ => none) "/r" c5scan).files.map
        (fun p => strSplit '/' p)).count σ = 1)) :=
  ⟨by decide, by decide,
   buildProjectMap_tree_bijection (fun _ _ => none) "/r" c5scan
     (by decide) (by decide)⟩

end ReactGen
